import Mathlib

/-!
Verification of the isometric-scene compositor repository.

The geometry kernel of the source operates on `f64`. We model `f64` values
as exact rationals extended with the IEEE-754 special values that the
source's control flow depends on: NaN (the kernel's ray-direction fallback
triggers on `is_nan`), the two infinities (produced by division by zero,
they make all the kernel's comparisons false) and the negative zero
(observable through `f64::signum`, which returns `-1.0` for `-0.0`).
Rounding is not modelled: on the integer-valued inputs appearing in the
concrete theorems below every operation the kernel performs is exact.
`fin 0` denotes `+0.0`; `nzero` denotes `-0.0`.
-/

inductive F where
  | nan : F
  | pinf : F
  | ninf : F
  | nzero : F
  | fin : ℚ → F
deriving DecidableEq, Repr

/-- The IEEE sign bit: `true` means negative. `fin 0` is `+0.0`. -/
def F.signbit : F → Bool
  | .nan => false
  | .pinf => false
  | .ninf => true
  | .nzero => true
  | .fin q => decide (q < 0)

/-- Whether the value is a zero (either `+0.0` or `-0.0`). -/
def F.isZero : F → Bool
  | .nzero => true
  | .fin q => decide (q = 0)
  | _ => false

/-- The rational magnitude of a finite value (`-0.0` has magnitude `0`). -/
def F.qval : F → ℚ
  | .fin q => q
  | _ => 0

/-- IEEE subtraction on exact values: `x - x = +0.0`, `(-0.0) - (+0.0) = -0.0`. -/
def F.sub : F → F → F
  | .nan, _ => .nan
  | _, .nan => .nan
  | .pinf, .pinf => .nan
  | .ninf, .ninf => .nan
  | .pinf, _ => .pinf
  | .ninf, _ => .ninf
  | _, .pinf => .ninf
  | _, .ninf => .pinf
  | .nzero, .nzero => .fin 0
  | .nzero, .fin q => if q = 0 then .nzero else .fin (-q)
  | .fin p, .nzero => .fin p
  | .fin p, .fin q => .fin (p - q)

/-- IEEE multiplication on exact values; `∞ · 0 = NaN`, zero signs multiply. -/
def F.mul : F → F → F
  | .nan, _ => .nan
  | _, .nan => .nan
  | .pinf, b => if b.isZero then .nan else if b.signbit then .ninf else .pinf
  | .ninf, b => if b.isZero then .nan else if b.signbit then .pinf else .ninf
  | a, .pinf => if a.isZero then .nan else if a.signbit then .ninf else .pinf
  | a, .ninf => if a.isZero then .nan else if a.signbit then .pinf else .ninf
  | .nzero, .nzero => .fin 0
  | .nzero, .fin q => if q < 0 then .fin 0 else .nzero
  | .fin p, .nzero => if p < 0 then .fin 0 else .nzero
  | .fin p, .fin q =>
    if p = 0 ∨ q = 0 then (if p < 0 ∨ q < 0 then .nzero else .fin 0)
    else .fin (p * q)

/-- IEEE division on exact values: `0/0 = NaN`, `x/0 = ±∞`, `±∞/±∞ = NaN`. -/
def F.div : F → F → F
  | .nan, _ => .nan
  | _, .nan => .nan
  | .pinf, .pinf => .nan
  | .pinf, .ninf => .nan
  | .ninf, .pinf => .nan
  | .ninf, .ninf => .nan
  | .pinf, b => if b.signbit then .ninf else .pinf
  | .ninf, b => if b.signbit then .pinf else .ninf
  | a, .pinf => if a.signbit then .nzero else .fin 0
  | a, .ninf => if a.signbit then .fin 0 else .nzero
  | a, b =>
    if a.isZero then
      (if b.isZero then .nan
       else if a.signbit ≠ b.signbit then .nzero else .fin 0)
    else if b.isZero then
      (if a.signbit ≠ b.signbit then .ninf else .pinf)
    else .fin (a.qval / b.qval)

/-- IEEE equality test (`==`): NaN compares false, `+0.0 == -0.0`. -/
def F.feq : F → F → Bool
  | .nan, _ => false
  | _, .nan => false
  | .pinf, .pinf => true
  | .ninf, .ninf => true
  | .pinf, _ => false
  | _, .pinf => false
  | .ninf, _ => false
  | _, .ninf => false
  | a, b => decide (a.qval = b.qval)

/-- IEEE `<=`: false whenever NaN is involved. -/
def F.fle : F → F → Bool
  | .nan, _ => false
  | _, .nan => false
  | .ninf, _ => true
  | _, .pinf => true
  | .pinf, _ => false
  | _, .ninf => false
  | a, b => decide (a.qval ≤ b.qval)

/-- IEEE `<`: false whenever NaN is involved. -/
def F.flt : F → F → Bool
  | .nan, _ => false
  | _, .nan => false
  | _, .ninf => false
  | .ninf, _ => true
  | .pinf, _ => false
  | _, .pinf => true
  | a, b => decide (a.qval < b.qval)

/-- The Rust function `f64::signum`: NaN for NaN, otherwise `±1.0` by the sign bit
(so `(-0.0).signum() = -1.0`). -/
def F.fsignum : F → F
  | .nan => .nan
  | x => if x.signbit then .fin (-1) else .fin 1

def F.isNaN : F → Bool
  | .nan => true
  | _ => false

/-! ### Vectors and the geometry kernel (`src/shapes.rs`) -/

/-- Rust `Vec2<f64>` as used by the geometry kernel. -/
structure FV2 where
  x : F
  y : F
deriving DecidableEq, Repr

/-- Rust `Vec2::cross`: `self.x * other.y - self.y * other.x`. -/
def FV2.cross (a b : FV2) : F := F.sub (F.mul a.x b.y) (F.mul a.y b.x)

/-- Componentwise `Vec2` subtraction. -/
def FV2.sub (a b : FV2) : FV2 := ⟨F.sub a.x b.x, F.sub a.y b.y⟩

/-- Rust `intersection_parameters` from `src/shapes.rs`: returns `(lambda, mu)`. -/
def intersection_parameters (p1 d1 p2 d2 : FV2) : F × F :=
  (F.div (FV2.cross (FV2.sub p2 p1) d2) (FV2.cross d1 d2),
   F.div (FV2.cross (FV2.sub p1 p2) d1) (FV2.cross d2 d1))

/-- The initial ray direction `vect![1.0, 0.0]` of `contains`. -/
def dirX : FV2 := ⟨.fin 1, .fin 0⟩

/-- The fallback ray direction `vect![0.0, 1.0]` of `contains`. -/
def dirY : FV2 := ⟨.fin 0, .fin 1⟩

/-- The loop body of `contains`: walks the edge list carrying the previous
vertex `sp0`, the current ray `direction` and the crossing count, exactly as
the `for` loop in `src/shapes.rs` does (the direction mutation on NaN
persists for the remaining edges). -/
def containsGo (p : FV2) : List (FV2 × FV2) → FV2 → FV2 → Nat → Bool
  | [], _, _, n => n % 2 == 1
  | (sp1, sp2) :: rest, sp0, direction, n =>
    let edge := FV2.sub sp2 sp1
    let prev_edge := FV2.sub sp1 sp0
    let lm0 := intersection_parameters sp1 edge p direction
    let isnan := F.isNaN lm0.1 || F.isNaN lm0.2
    let dir1 := if isnan then dirY else direction
    let lm := if isnan then intersection_parameters sp1 edge p dirY else lm0
    if F.fle (.fin 0) lm.1 && F.fle lm.1 (.fin 1) && F.feq lm.2 (.fin 0) then
      true
    else
      let crossOk :=
        (F.flt (.fin 0) lm.1 && F.flt lm.1 (.fin 1)) ||
        (F.feq lm.1 (.fin 0) &&
          F.feq (F.fsignum (FV2.cross prev_edge dir1)) (F.fsignum (FV2.cross edge dir1)))
      containsGo p rest sp1 dir1 (if crossOk && F.flt (.fin 0) lm.2 then n + 1 else n)

/-- A `Polygonal` value as consumed by the kernel: its point iterator and its
line iterator (the trait objects of `src/shapes.rs`). -/
structure Polyg where
  pts : List FV2
  lns : List (FV2 × FV2)

/-- Rust `contains` from `src/shapes.rs`, starting with direction `(1,0)` and the
last point of the point iterator as `sp_0`; an empty point iterator returns
`false`. -/
def containsPolyg (a : Polyg) (p : FV2) : Bool :=
  match a.pts.getLast? with
  | none => false
  | some sp0 => containsGo p a.lns sp0 dirX 0

/-- Rust `obscures` from `src/shapes.rs`: every point of `b` is contained in `a`. -/
def obscuresPolyg (a : Polyg) (b : Polyg) : Bool :=
  b.pts.all (containsPolyg a)

/-- Rust `itertools::circular_tuple_windows` over a point list: consecutive pairs
plus the wrap-around pair; the auxiliary carries the first element. -/
def circAux (first : α) : List α → List (α × α)
  | [] => []
  | [a] => [(a, first)]
  | a :: b :: rest => (a, b) :: circAux first (b :: rest)

/-- Rust `lines_iter` of a `ShapePrimitive`. -/
def circWindows : List α → List (α × α)
  | [] => []
  | a :: rest => circAux a (a :: rest)

/-- Rust `ShapePrimitive { points }`. -/
structure ShapePrimitive where
  points : List FV2
deriving DecidableEq, Repr

/-- Rust `Vec3<f64>` (used for component normals). -/
structure FV3 where
  x : F
  y : F
  z : F
deriving DecidableEq, Repr

/-- Rust `ShapeComponent { normal, primitives }`. -/
structure ShapeComponent where
  normal : FV3
  primitives : List ShapePrimitive
deriving DecidableEq, Repr

/-- Rust `Shape { components }`. -/
structure Shape where
  components : List ShapeComponent
deriving DecidableEq, Repr

/-- The `Polygonal` impl of `ShapePrimitive`. -/
def ShapePrimitive.toPolyg (s : ShapePrimitive) : Polyg :=
  ⟨s.points, circWindows s.points⟩

/-- The `Polygonal` impl of `ShapeComponent` (iterators concatenated per
primitive). -/
def ShapeComponent.toPolyg (c : ShapeComponent) : Polyg :=
  ⟨(c.primitives.map (·.points)).flatten,
   (c.primitives.map (fun p => circWindows p.points)).flatten⟩

/-- The `Polygonal` impl of `Shape`. -/
def Shape.toPolyg (s : Shape) : Polyg :=
  ⟨(s.components.map (fun c => c.toPolyg.pts)).flatten,
   (s.components.map (fun c => c.toPolyg.lns)).flatten⟩

/-- Rust `OptObscurable for Option<ShapePrimitive>`: delete iff obscured, else
return unchanged. The occluder is the `&impl Polygonal` argument. -/
def delPrimOpt (o : Option ShapePrimitive) (occ : Polyg) : Option ShapePrimitive :=
  match o with
  | some s => if obscuresPolyg occ s.toPolyg then none else some s
  | none => o

/-- Rust `OptObscurable for Option<ShapeComponent>`: keep the surviving
primitives in order; delete the component when none survive. -/
def delCompOpt (o : Option ShapeComponent) (occ : Polyg) : Option ShapeComponent :=
  match o with
  | some s =>
    let new_primitives := s.primitives.filterMap (fun p => delPrimOpt (some p) occ)
    if new_primitives.length = 0 then none
    else some ⟨s.normal, new_primitives⟩
  | none => none

/-- Rust `OptObscurable for Option<Shape>`: keep the surviving components in
order; delete the shape when none survive. -/
def delShapeOpt (o : Option Shape) (occ : Polyg) : Option Shape :=
  match o with
  | some s =>
    let new_components := s.components.filterMap (fun c => delCompOpt (some c) occ)
    if new_components.length = 0 then none
    else some ⟨new_components⟩
  | none => none

/-- Rust `contains` started from an arbitrary initial ray direction. With `dirX`
this is the source's `contains`; with `dirY` it is the full classification
with the fallback direction that the specification describes. -/
def containsFromDir (d : FV2) (a : Polyg) (p : FV2) : Bool :=
  match a.pts.getLast? with
  | none => false
  | some sp0 => containsGo p a.lns sp0 d 0

/-! ### The path codec (`src/path.rs`, `src/iter.rs`)

The codec performs no arithmetic apart from the relative-command additions
in the decoder, so its coordinates are modelled as exact rationals. -/

/-- Rust `Vec2<f64>` as moved through the codec. -/
structure QV2 where
  x : ℚ
  y : ℚ
deriving DecidableEq, Repr

/-- Rust `CommandType` from `src/path.rs`. -/
inductive CommandType where
  | MoveToAbs | MoveToRel | LineToAbs | LineToRel
  | VertAbs | VertRel | HorizAbs | HorizRel | ClosePath
deriving DecidableEq, Repr

/-- Rust `Command` from `src/path.rs`. -/
structure Command where
  cmd_type : CommandType
  params : List ℚ
deriving DecidableEq, Repr

/-- The inner `while` of the encoder's first (`MoveToAbs`) command: consume
points while consecutive pairs stay diagonal; on the first axis-aligned pair
stop with state `(last_point, current_point, remaining)`; `none` means the
point iterator was exhausted (`finished = true`). -/
def moveParams (cur : QV2) : List QV2 → List QV2 × Option (QV2 × QV2 × List QV2)
  | [] => ([], none)
  | p :: ps =>
    if p.x = cur.x ∨ p.y = cur.y then ([], some (cur, p, ps))
    else
      let r := moveParams p ps
      (p :: r.1, r.2)

/-- The `VertAbs` run: consume points while they keep the x of the running
current point; returns the consumed run, the last point of the run, and
either the first non-matching point with the rest, or `none` on exhaustion. -/
def collectV (cur : QV2) : List QV2 → List QV2 × QV2 × Option (QV2 × List QV2)
  | [] => ([], cur, none)
  | p :: ps =>
    if p.x = cur.x then
      let r := collectV p ps
      (p :: r.1, r.2)
    else ([], cur, some (p, ps))

/-- The `HorizAbs` run (same-y points). -/
def collectH (cur : QV2) : List QV2 → List QV2 × QV2 × Option (QV2 × List QV2)
  | [] => ([], cur, none)
  | p :: ps =>
    if p.y = cur.y then
      let r := collectH p ps
      (p :: r.1, r.2)
    else ([], cur, some (p, ps))

/-- The `LineToAbs` run: the source consumes while the next point differs
from the running current point in x or y, i.e. until an exact repeat. -/
def collectL (cur : QV2) : List QV2 → List QV2 × QV2 × Option (QV2 × List QV2)
  | [] => ([], cur, none)
  | p :: ps =>
    if p.x ≠ cur.x ∨ p.y ≠ cur.y then
      let r := collectL p ps
      (p :: r.1, r.2)
    else ([], cur, some (p, ps))

theorem collectV_rest_lt (cur p : QV2) (rest : List QV2) :
    ∀ l : List QV2, (collectV cur l).2.2 = some (p, rest) → rest.length < l.length := by
  intro l
  induction l generalizing cur with
  | nil => simp [collectV]
  | cons a as ih =>
    simp only [collectV]
    by_cases h : a.x = cur.x
    · simp only [h, if_pos rfl]
      intro hsome
      exact Nat.lt_succ_of_lt (ih a hsome)
    · simp only [if_neg h]
      intro hsome
      obtain ⟨rfl, rfl⟩ : p = a ∧ rest = as := by
        constructor <;> [skip; skip] <;> cases hsome <;> rfl
      simp

theorem collectH_rest_lt (cur p : QV2) (rest : List QV2) :
    ∀ l : List QV2, (collectH cur l).2.2 = some (p, rest) → rest.length < l.length := by
  intro l
  induction l generalizing cur with
  | nil => simp [collectH]
  | cons a as ih =>
    simp only [collectH]
    by_cases h : a.y = cur.y
    · simp only [h, if_pos rfl]
      intro hsome
      exact Nat.lt_succ_of_lt (ih a hsome)
    · simp only [if_neg h]
      intro hsome
      obtain ⟨rfl, rfl⟩ : p = a ∧ rest = as := by
        constructor <;> [skip; skip] <;> cases hsome <;> rfl
      simp

theorem collectL_rest_lt (cur p : QV2) (rest : List QV2) :
    ∀ l : List QV2, (collectL cur l).2.2 = some (p, rest) → rest.length < l.length := by
  intro l
  induction l generalizing cur with
  | nil => simp [collectL]
  | cons a as ih =>
    simp only [collectL]
    by_cases h : a.x ≠ cur.x ∨ a.y ≠ cur.y
    · simp only [if_pos h]
      intro hsome
      exact Nat.lt_succ_of_lt (ih a hsome)
    · simp only [if_neg h]
      intro hsome
      obtain ⟨rfl, rfl⟩ : p = a ∧ rest = as := by
        constructor <;> [skip; skip] <;> cases hsome <;> rfl
      simp

/-- Flattening `p.x :: p.y :: ...` — turning a point run into command parameters. -/
def flatPairs : List QV2 → List ℚ
  | [] => []
  | p :: ps => p.x :: p.y :: flatPairs ps

/-- The encoder's steady state (`ToSvgCommandIter` after the first command):
`last` is `last_point`, `cur` is `current_point` (not yet emitted), and the
list holds the points still in the iterator.  Produces all remaining
commands including the final `ClosePath`. -/
def encodeRest (last cur : QV2) (l : List QV2) : List Command :=
  match l with
  | [] =>
    -- points exhausted with `finished == false`: flush `cur`, then close
    (if cur.x = last.x then Command.mk .VertAbs [cur.y]
     else if cur.y = last.y then Command.mk .HorizAbs [cur.x]
     else Command.mk .LineToAbs [cur.x, cur.y]) :: [Command.mk .ClosePath []]
  | np :: ps =>
    if cur.x = last.x then
      let r := collectV cur (np :: ps)
      Command.mk .VertAbs (cur.y :: r.1.map (·.y)) ::
        (match h : r.2.2 with
         | some (p, rest) => encodeRest r.2.1 p rest
         | none => [Command.mk .ClosePath []])
    else if cur.y = last.y then
      let r := collectH cur (np :: ps)
      Command.mk .HorizAbs (cur.x :: r.1.map (·.x)) ::
        (match h : r.2.2 with
         | some (p, rest) => encodeRest r.2.1 p rest
         | none => [Command.mk .ClosePath []])
    else
      let r := collectL cur (np :: ps)
      Command.mk .LineToAbs (cur.x :: cur.y :: flatPairs r.1) ::
        (match h : r.2.2 with
         | some (p, rest) => encodeRest r.2.1 p rest
         | none => [Command.mk .ClosePath []])
termination_by l.length
decreasing_by
  · exact collectV_rest_lt _ _ _ _ h
  · exact collectH_rest_lt _ _ _ _ h
  · exact collectL_rest_lt _ _ _ _ h

/-- Rust `ToSvgCommandIter::from_vec` run to completion: the full command stream
the encoder produces for a point list. -/
def encodeCommands : List QV2 → List Command
  | [] => encodeRest ⟨0, 0⟩ ⟨0, 0⟩ []
  | p0 :: rest =>
    let r := moveParams p0 rest
    Command.mk .MoveToAbs (p0.x :: p0.y :: flatPairs r.1) ::
      (match r.2 with
       | none => [Command.mk .ClosePath []]
       | some (last1, cur1, pts1) => encodeRest last1 cur1 pts1)

/-- Decoding the parameter pairs of an absolute `M`/`L` command after the
first processed pair: each pair becomes the new current point and is
emitted with `ret == false`.  `none` models the source's out-of-bounds
panic on a dangling odd parameter. -/
def decodePairsAbs (cur : QV2) : List ℚ → Option (List (QV2 × Bool) × QV2)
  | [] => some ([], cur)
  | x :: y :: rest =>
    (decodePairsAbs ⟨x, y⟩ rest).map (fun r => ((⟨x, y⟩, false) :: r.1, r.2))
  | [_] => none

/-- Decoding the parameter pairs of a relative `m`/`l` command: each pair is
added onto the current point. -/
def decodePairsRel (cur : QV2) : List ℚ → Option (List (QV2 × Bool) × QV2)
  | [] => some ([], cur)
  | x :: y :: rest =>
    (decodePairsRel ⟨cur.x + x, cur.y + y⟩ rest).map
      (fun r => ((⟨cur.x + x, cur.y + y⟩, false) :: r.1, r.2))
  | [_] => none

/-- Decoding a `V` parameter run: each scalar replaces the y coordinate. -/
def decodeYsAbs (cur : QV2) : List ℚ → List (QV2 × Bool) × QV2
  | [] => ([], cur)
  | v :: rest =>
    let r := decodeYsAbs ⟨cur.x, v⟩ rest
    ((⟨cur.x, v⟩, false) :: r.1, r.2)

/-- Decoding a `v` parameter run: each scalar is added to the y coordinate. -/
def decodeYsRel (cur : QV2) : List ℚ → List (QV2 × Bool) × QV2
  | [] => ([], cur)
  | v :: rest =>
    let r := decodeYsRel ⟨cur.x, cur.y + v⟩ rest
    ((⟨cur.x, cur.y + v⟩, false) :: r.1, r.2)

/-- Decoding an `H` parameter run: each scalar replaces the x coordinate. -/
def decodeXsAbs (cur : QV2) : List ℚ → List (QV2 × Bool) × QV2
  | [] => ([], cur)
  | v :: rest =>
    let r := decodeXsAbs ⟨v, cur.y⟩ rest
    ((⟨v, cur.y⟩, false) :: r.1, r.2)

/-- Decoding an `h` parameter run: each scalar is added to the x coordinate. -/
def decodeXsRel (cur : QV2) : List ℚ → List (QV2 × Bool) × QV2
  | [] => ([], cur)
  | v :: rest =>
    let r := decodeXsRel ⟨cur.x + v, cur.y⟩ rest
    ((⟨cur.x + v, cur.y⟩, false) :: r.1, r.2)

/-- One command of `SvgPointIter::next`, processed to the end of its
parameter list (the source's `pointer`/`implicit_lineto` state is local to
a command: the flag is cleared whenever the pointer reaches the end of the
command, so the subpath start is set exactly by the first pair of each
move command).  Returns the emitted `(point, ret)` pairs and the new
`(current_point, start_point)`.  `none` models the source's parameter-index
panic; a `ClosePath` with parameters never advances its pointer and loops
forever in the source, also modelled as `none`. -/
def runCommand (c : Command) (cur start : QV2) :
    Option (List (QV2 × Bool) × QV2 × QV2) :=
  match c.cmd_type with
  | .MoveToAbs =>
    match c.params with
    | x :: y :: rest =>
      (decodePairsAbs ⟨x, y⟩ rest).map
        (fun r => ((⟨x, y⟩, false) :: r.1, r.2, (⟨x, y⟩ : QV2)))
    | _ => none
  | .MoveToRel =>
    match c.params with
    | x :: y :: rest =>
      (decodePairsRel ⟨cur.x + x, cur.y + y⟩ rest).map
        (fun r => ((⟨cur.x + x, cur.y + y⟩, false) :: r.1, r.2,
          (⟨cur.x + x, cur.y + y⟩ : QV2)))
    | _ => none
  | .LineToAbs =>
    match c.params with
    | x :: y :: rest =>
      (decodePairsAbs ⟨x, y⟩ rest).map
        (fun r => ((⟨x, y⟩, false) :: r.1, r.2, start))
    | _ => none
  | .LineToRel =>
    match c.params with
    | x :: y :: rest =>
      (decodePairsRel ⟨cur.x + x, cur.y + y⟩ rest).map
        (fun r => ((⟨cur.x + x, cur.y + y⟩, false) :: r.1, r.2, start))
    | _ => none
  | .VertAbs =>
    match c.params with
    | [] => none
    | ps => let r := decodeYsAbs cur ps; some (r.1, r.2, start)
  | .VertRel =>
    match c.params with
    | [] => none
    | ps => let r := decodeYsRel cur ps; some (r.1, r.2, start)
  | .HorizAbs =>
    match c.params with
    | [] => none
    | ps => let r := decodeXsAbs cur ps; some (r.1, r.2, start)
  | .HorizRel =>
    match c.params with
    | [] => none
    | ps => let r := decodeXsRel cur ps; some (r.1, r.2, start)
  | .ClosePath =>
    match c.params with
    | [] => some ([(start, true)], start, start)
    | _ => none

/-- Rust `SvgPointIter` run over a whole command stream from a given state
(`current_point`, `start_point` both start at the origin in the source). -/
def decodeCommands : List Command → QV2 → QV2 → Option (List (QV2 × Bool) × QV2 × QV2)
  | [], cur, start => some ([], cur, start)
  | c :: cs, cur, start =>
    match runCommand c cur start with
    | none => none
    | some (es, cur1, start1) =>
      match decodeCommands cs cur1 start1 with
      | none => none
      | some (es2, cur2, start2) => some (es ++ es2, cur2, start2)

theorem length_dropWhile_le (p : α → Bool) (l : List α) :
    (l.dropWhile p).length ≤ l.length := by
  induction l with
  | nil => simp
  | cons a as ih =>
    by_cases h : p a
    · simp only [List.dropWhile_cons, h, if_pos]
      exact Nat.le_succ_of_le ih
    · simp [List.dropWhile_cons, h]

/-- Rust `PrimitiveIter::next` run to completion: group the emitted points into
primitives, cutting (and dropping) every `ret == true` marker; a final
group with no following marker still yields a primitive, and an exhausted
stream yields nothing. -/
def primsOfPoints : List (QV2 × Bool) → List (List QV2)
  | [] => []
  | a :: as =>
    ((a :: as).takeWhile (fun pb => !pb.2)).map (·.1) ::
      primsOfPoints (((a :: as).dropWhile (fun pb => !pb.2)).tail)
termination_by l => l.length
decreasing_by
  have h1 := length_dropWhile_le (fun pb : QV2 × Bool => !pb.2) (a :: as)
  have h2 : ((a :: as).dropWhile (fun pb => !pb.2)).tail.length ≤
      ((a :: as).dropWhile (fun pb => !pb.2)).length - 1 := by
    cases hdw : (a :: as).dropWhile (fun pb => !pb.2) with
    | nil => simp
    | cons b bs => simp
  simp only [List.length_cons] at h1 ⊢
  omega

/-! ### The path-notation tokenizer (`PATH_REGEX` and `FromSvgCommandIter`)

`FromSvgCommandIter` drives `PATH_REGEX.captures_iter` over the input.
The pattern `(?i)(?P<cmd>[MVHLZ])\s*(?P<nums>(([+-]?\d+\.?\d*(E\d+)?)(\s|,)?)*)`
is deterministic: a match starts exactly at a character of the
(case-insensitive) class, then greedily takes whitespace, then a greedy run
of number tokens each followed by at most one separator.  The scanner below
reproduces this matching behaviour character by character (with the ASCII
part of `\s`, which covers all whitespace these inputs contain). -/

/-- The characters matched by the `[MVHLZ]` class under `(?i)`. -/
def isCmdChar (c : Char) : Bool :=
  c = 'M' ∨ c = 'm' ∨ c = 'V' ∨ c = 'v' ∨ c = 'H' ∨ c = 'h' ∨
  c = 'L' ∨ c = 'l' ∨ c = 'Z' ∨ c = 'z'

/-- ASCII `\s`. -/
def isSpaceChar (c : Char) : Bool :=
  c = ' ' ∨ c = '\t' ∨ c = '\n' ∨ c = '\x0d' ∨ c = '\x0b' ∨ c = '\x0c'

/-- A separator inside a number run: one `\s` or `,`. -/
def isSepChar (c : Char) : Bool :=
  isSpaceChar c ∨ c = ','

def isDigitChar (c : Char) : Bool :=
  '0' ≤ c ∧ c ≤ '9'

/-- Split an optional leading `+`/`-`. -/
def splitSign : List Char → List Char × List Char
  | [] => ([], [])
  | c :: r => if c = '+' ∨ c = '-' then ([c], r) else ([], c :: r)

/-- Split a (possibly empty) leading digit run. -/
def splitDigits (l : List Char) : List Char × List Char :=
  (l.takeWhile isDigitChar, l.dropWhile isDigitChar)

/-- Split an optional leading `.`. -/
def splitDot : List Char → List Char × List Char
  | '.' :: r => (['.'], r)
  | l => ([], l)

/-- Split an optional `(E\d+)` suffix (case-insensitive `E`); the matcher
backtracks to nothing when no digit follows the `E`. -/
def splitExp (l : List Char) : List Char × List Char :=
  match l with
  | e :: r =>
    if e = 'E' ∨ e = 'e' then
      let d := splitDigits r
      if d.1.isEmpty then ([], l) else (e :: d.1, d.2)
    else ([], l)
  | [] => ([], [])

theorem splitSign_snd_le (l : List Char) : (splitSign l).2.length ≤ l.length := by
  cases l with
  | nil => simp [splitSign]
  | cons c r =>
    by_cases h : c = '+' ∨ c = '-' <;> simp [splitSign, h]

theorem splitDigits_snd_le (l : List Char) : (splitDigits l).2.length ≤ l.length :=
  length_dropWhile_le _ l

theorem splitDigits_snd_lt (l : List Char) (h : ¬ (splitDigits l).1.isEmpty) :
    (splitDigits l).2.length < l.length := by
  cases l with
  | nil => simp [splitDigits] at h
  | cons c r =>
    by_cases hc : isDigitChar c
    · simp only [splitDigits, List.takeWhile_cons, List.dropWhile_cons, hc, if_pos]
      have := length_dropWhile_le isDigitChar r
      simp only [List.length_cons]
      omega
    · simp [splitDigits, List.takeWhile_cons, hc] at h

theorem splitDot_snd_le (l : List Char) : (splitDot l).2.length ≤ l.length := by
  unfold splitDot
  split <;> simp

theorem splitExp_snd_le (l : List Char) : (splitExp l).2.length ≤ l.length := by
  cases l with
  | nil => simp [splitExp]
  | cons e r =>
    by_cases he : e = 'E' ∨ e = 'e'
    · simp only [splitExp, he, if_pos]
      by_cases hd : (splitDigits r).1.isEmpty
      · simp [hd]
      · simp only [hd, if_neg, Bool.false_eq_true, not_false_iff]
        have := splitDigits_snd_le r
        simp only [List.length_cons]
        omega
    · simp [splitExp, he]

/-- Greedy match of one `[+-]?\d+\.?\d*(E\d+)?` token; returns the matched
characters and the rest, or `none` when no number starts here. -/
def scanNumber (l : List Char) : Option (List Char × List Char) :=
  let s := splitSign l
  let d := splitDigits s.2
  if d.1.isEmpty then none
  else
    let dot := splitDot d.2
    let d2 := splitDigits dot.2
    let ex := splitExp d2.2
    some (s.1 ++ d.1 ++ dot.1 ++ d2.1 ++ ex.1, ex.2)

theorem scanNumber_rest_lt (l t r : List Char) (h : scanNumber l = some (t, r)) :
    r.length < l.length := by
  unfold scanNumber at h
  by_cases hd : (splitDigits (splitSign l).2).1.isEmpty
  · simp [hd] at h
  · simp only [hd, Bool.false_eq_true, not_false_iff, if_neg,
      Option.some.injEq, Prod.mk.injEq] at h
    obtain ⟨-, rfl⟩ := h
    have h1 := splitExp_snd_le (splitDigits (splitDot (splitDigits (splitSign l).2).2).2).2
    have h2 := splitDigits_snd_le (splitDot (splitDigits (splitSign l).2).2).2
    have h3 := splitDot_snd_le (splitDigits (splitSign l).2).2
    have h4 := splitDigits_snd_lt (splitSign l).2 hd
    have h5 := splitSign_snd_le l
    omega

/-- The greedy `nums` capture: number tokens separated by at most one
separator each; returns the capture and the remaining input. -/
def scanNums (l : List Char) : List Char × List Char :=
  match h : scanNumber l with
  | none => ([], l)
  | some (tok, []) => (tok, [])
  | some (tok, s :: rest2) =>
    if isSepChar s then
      let r := scanNums rest2
      (tok ++ s :: r.1, r.2)
    else
      let r := scanNums (s :: rest2)
      (tok ++ r.1, r.2)
termination_by l.length
decreasing_by
  · have := scanNumber_rest_lt l tok (s :: rest2) h
    simp only [List.length_cons] at this ⊢
    omega
  · exact scanNumber_rest_lt l tok (s :: rest2) h

theorem scanNums_rest_le (l : List Char) : (scanNums l).2.length ≤ l.length := by
  have H : ∀ (n : ℕ) (l : List Char), l.length ≤ n → (scanNums l).2.length ≤ l.length := by
    intro n
    induction n with
    | zero =>
      intro l hl
      rw [scanNums.eq_def]
      split
      · exact Nat.le_refl _
      · simp
      · rename_i tok s rest2 h
        have hlt := scanNumber_rest_lt l tok (s :: rest2) h
        simp only [List.length_cons] at hlt
        omega
    | succ n ih =>
      intro l hl
      rw [scanNums.eq_def]
      split
      · exact Nat.le_refl _
      · simp
      · rename_i tok s rest2 h
        have hlt := scanNumber_rest_lt l tok (s :: rest2) h
        simp only [List.length_cons] at hlt
        by_cases hsep : isSepChar s
        · simp only [hsep, if_pos]
          have := ih rest2 (by omega)
          omega
        · simp only [hsep, Bool.false_eq_true, not_false_iff, if_neg]
          have := ih (s :: rest2) (by simp only [List.length_cons]; omega)
          simp only [List.length_cons] at this
          omega
  exact H l.length l (Nat.le_refl _)

/-- Rust `PATH_REGEX.captures_iter`: successive matches, each yielding the `cmd`
character and the `nums` capture.  Characters that cannot start a match —
in particular any opcode outside `[MmVvHhLlZz]` — are skipped. -/
def tokenize : List Char → List (Char × List Char)
  | [] => []
  | c :: rest =>
    if isCmdChar c then
      (c, (scanNums (rest.dropWhile isSpaceChar)).1) ::
        tokenize (scanNums (rest.dropWhile isSpaceChar)).2
    else tokenize rest
termination_by l => l.length
decreasing_by
  · have h1 := scanNums_rest_le (r.dropWhile isSpaceChar)
    have h2 := length_dropWhile_le isSpaceChar r
    simp only [List.length_cons]
    omega
  · simp

/-- Rust `str::split_terminator` on `[',', ' ']`: split at every separator
occurrence, keeping interior empty fields but dropping one trailing empty
field. `splitOnSeps` is the plain splitter. -/
def splitOnSeps : List Char → List (List Char)
  | [] => [[]]
  | c :: rest =>
    if c = ',' ∨ c = ' ' then [] :: splitOnSeps rest
    else
      match splitOnSeps rest with
      | f :: fs => (c :: f) :: fs
      | [] => [[c]]

def splitTerm (l : List Char) : List (List Char) :=
  let fs := splitOnSeps l
  if fs.getLast? = some [] then fs.dropLast else fs

/-- Digits to ℕ (base 10). -/
def digitsToNat (l : List Char) : ℕ :=
  l.foldl (fun acc c => 10 * acc + (c.toNat - '0'.toNat)) 0

/-- Rust `str::parse::<f64>` on the tokens this pipeline produces, idealised to
an exact rational (no rounding).  The accepted grammar is the float grammar of
Rust (sign, digits, optional dot and fraction, optional exponent); the
`inf`/`NaN` keyword forms are omitted, as no token out of `splitTerm` can
contain those letters.  `none` is a parse failure — the source panics with a
message saying the token could not be converted to a float. -/
def parseF64 (l : List Char) : Option ℚ :=
  match l with
  | [] => none
  | _ =>
    let s := splitSign l
    let neg := s.1 = ['-']
    let ip := (splitDigits s.2).1
    let r2 := (splitDigits s.2).2
    let hasDot := r2.head? = some '.'
    let r3 := if hasDot then r2.tail else r2
    let fp := (splitDigits r3).1
    let r4 := (splitDigits r3).2
    if ip.isEmpty ∧ fp.isEmpty then none
    else if ¬ hasDot ∧ ¬ fp.isEmpty then none
    else
      let mant : ℚ := (digitsToNat ip : ℚ) + (digitsToNat fp : ℚ) / (10 : ℚ) ^ fp.length
      let signed : ℚ := if neg then -mant else mant
      match r4 with
      | [] => some signed
      | e :: r5 =>
        if e = 'e' ∨ e = 'E' then
          let es := splitSign r5
          let eneg := es.1 = ['-']
          let eds := (splitDigits es.2).1
          let r6 := (splitDigits es.2).2
          if eds.isEmpty ∨ ¬ r6.isEmpty then none
          else if eneg then some (signed / (10 : ℚ) ^ digitsToNat eds)
          else some (signed * (10 : ℚ) ^ digitsToNat eds)
        else none

/-- Rust `CommandType::from_opcode`, with `none` standing for the source's
`panic!("That's not a valid SVG command type")`. -/
def from_opcode (c : Char) : Option CommandType :=
  if c = 'M' then some .MoveToAbs
  else if c = 'm' then some .MoveToRel
  else if c = 'L' then some .LineToAbs
  else if c = 'l' then some .LineToRel
  else if c = 'V' then some .VertAbs
  else if c = 'v' then some .VertRel
  else if c = 'H' then some .HorizAbs
  else if c = 'h' then some .HorizRel
  else if c = 'Z' ∨ c = 'z' then some .ClosePath
  else none

/-- Rust `FromSvgCommandIter` run to completion over an input string: tokenize,
then map each capture to a `Command`, with `none` when any numeric token
fails to parse (the source's descriptive panic) or an opcode is invalid. -/
def fromSvgCommands (s : List Char) : Option (List Command) :=
  (tokenize s).mapM (fun tc => do
    let ct ← from_opcode tc.1
    let params ← (splitTerm tc.2).mapM parseF64
    pure (Command.mk ct params))

/-! ### The compositor's grid traversal (`get_objects` in `src/lib.rs`) -/

/-- The inner `y` loop of `get_objects` for fixed depth `d` and `x`:
`z = depth - x - y`, skipping cells with `z >= grid_size.z`. -/
def layerRow (Y Z d x : ℕ) : List (ℕ × ℕ × ℕ) :=
  (List.range (min Y (d + 1 - x))).filterMap (fun y =>
    if d - x - y < Z then some (x, y, d - x - y) else none)

/-- The `x` loop of `get_objects` for a fixed depth. -/
def layer (X Y Z d : ℕ) : List (ℕ × ℕ × ℕ) :=
  (List.range (min X (d + 1))).flatMap (layerRow Y Z d)

/-- The full traversal order of `get_objects` over a grid of size
`(X, Y, Z)`: depths `0 .. X+Y+Z-1`, nested `x`-then-`y`, `z` derived. -/
def visitOrder (X Y Z : ℕ) : List (ℕ × ℕ × ℕ) :=
  (List.range (X + Y + Z)).flatMap (layer X Y Z)


/-! ### Helper lemmas about the traversal -/

theorem layerRow_mem {Y Z d x : ℕ} {c : ℕ × ℕ × ℕ} (h : c ∈ layerRow Y Z d x) :
    ∃ y, y < min Y (d + 1 - x) ∧ c = (x, y, d - x - y) ∧ d - x - y < Z := by
  simp only [layerRow, List.mem_filterMap, List.mem_range] at h
  obtain ⟨y, hy, hc⟩ := h
  by_cases hz : d - x - y < Z
  · rw [if_pos hz] at hc
    exact ⟨y, hy, (Option.some_inj.mp hc).symm, hz⟩
  · rw [if_neg hz] at hc
    cases hc

theorem layer_mem_sum {X Y Z d : ℕ} {c : ℕ × ℕ × ℕ} (h : c ∈ layer X Y Z d) :
    c.1 + c.2.1 + c.2.2 = d := by
  simp only [layer, List.mem_flatMap, List.mem_range] at h
  obtain ⟨x, hx, hrow⟩ := h
  obtain ⟨y, hy, rfl, -⟩ := layerRow_mem hrow
  simp only [Nat.lt_min] at hx hy
  show x + y + (d - x - y) = d
  omega

theorem layer_pairwise_lex (X Y Z d : ℕ) :
    (layer X Y Z d).Pairwise
      (fun a b => a.1 < b.1 ∨ (a.1 = b.1 ∧ a.2.1 < b.2.1)) := by
  rw [layer, List.pairwise_flatMap]
  constructor
  · intro x hx
    rw [layerRow, List.pairwise_filterMap]
    refine (List.pairwise_lt_range _).imp ?_
    intro y1 y2 hlt b hb b' hb'
    simp only [Option.mem_def] at hb hb'
    split at hb
    · cases hb
      split at hb'
      · cases hb'
        right
        exact ⟨rfl, hlt⟩
      · cases hb'
    · cases hb
  · refine (List.pairwise_lt_range _).imp ?_
    intro x1 x2 hlt b hb b' hb'
    obtain ⟨y, -, rfl, -⟩ := layerRow_mem hb
    obtain ⟨y', -, rfl, -⟩ := layerRow_mem hb'
    left
    exact hlt

theorem visitOrder_pairwise_depth (X Y Z : ℕ) :
    (visitOrder X Y Z).Pairwise
      (fun a b => a.1 + a.2.1 + a.2.2 ≤ b.1 + b.2.1 + b.2.2) := by
  rw [visitOrder, List.pairwise_flatMap]
  constructor
  · intro d hd
    refine List.pairwise_of_forall_mem_list ?_
    intro a ha b hb
    rw [layer_mem_sum ha, layer_mem_sum hb]
  · refine (List.pairwise_lt_range _).imp ?_
    intro d1 d2 hlt a ha b hb
    rw [layer_mem_sum ha, layer_mem_sum hb]
    omega

/-- C2: the compositor's grid traversal visits cells in ascending depth
`d = x+y+z` (strictly increasing between depth layers), each layer in
nested x-then-y order with z derived, and for a `(2,2,2)` grid the order
is exactly: origin first, then the depth-1 cells, then depth-2, then
`(1,1,1)` last. -/
theorem C2_painter_order :
    (∀ X Y Z d c, c ∈ layer X Y Z d → c.1 + c.2.1 + c.2.2 = d) ∧
    (∀ X Y Z, (visitOrder X Y Z).Pairwise
      (fun a b => a.1 + a.2.1 + a.2.2 ≤ b.1 + b.2.1 + b.2.2)) ∧
    (∀ X Y Z d, (layer X Y Z d).Pairwise
      (fun a b => a.1 < b.1 ∨ (a.1 = b.1 ∧ a.2.1 < b.2.1))) ∧
    visitOrder 2 2 2 =
      [(0,0,0), (0,0,1), (0,1,0), (1,0,0), (0,1,1), (1,0,1), (1,1,0), (1,1,1)] := by
  refine ⟨fun X Y Z d c h => layer_mem_sum h, visitOrder_pairwise_depth, layer_pairwise_lex, ?_⟩
  decide

/-! ### The occlusion-deletion claims -/

theorem delPrim_eq (t : ShapePrimitive) (occ : Polyg) :
    delPrimOpt (some t) occ =
      if obscuresPolyg occ t.toPolyg then none else some t := rfl

theorem filterMap_delPrim (l : List ShapePrimitive) (occ : Polyg) :
    l.filterMap (fun p => delPrimOpt (some p) occ) =
      l.filter (fun p => !obscuresPolyg occ p.toPolyg) := by
  induction l with
  | nil => rfl
  | cons a as ih =>
    have ih2 : List.filterMap
        (fun p => if obscuresPolyg occ p.toPolyg = true then none else some p) as =
        List.filter (fun p => !obscuresPolyg occ p.toPolyg) as := ih
    simp only [List.filterMap_cons, List.filter_cons, delPrim_eq]
    by_cases h : obscuresPolyg occ a.toPolyg
    · simp [h, ih2]
    · simp [h, ih2]

theorem delComp_eq_filter (c : ShapeComponent) (occ : Polyg) :
    delCompOpt (some c) occ =
      (if (c.primitives.filter (fun p => !obscuresPolyg occ p.toPolyg)).length = 0
       then none
       else some ⟨c.normal,
         c.primitives.filter (fun p => !obscuresPolyg occ p.toPolyg)⟩) := by
  simp only [delCompOpt, filterMap_delPrim]

/-- C9: an empty-point primitive contains no point, is vacuously obscured
by every occluder, and is therefore always deleted. -/
theorem C9_empty_primitive_deleted :
    (∀ p : FV2, containsPolyg (ShapePrimitive.mk []).toPolyg p = false) ∧
    (∀ occ : Polyg, obscuresPolyg occ (ShapePrimitive.mk []).toPolyg = true) ∧
    (∀ occ : Polyg, delPrimOpt (some (ShapePrimitive.mk [])) occ = none) :=
  ⟨fun _ => rfl, fun _ => rfl, fun _ => rfl⟩

/-- C3: a primitive is deleted exactly when the occluder obscures it and is
otherwise returned unchanged; a component survives iff one of its
primitives survives; a shape survives iff one of its components survives. -/
theorem C3_reduce_if_obscured :
    (∀ (t : ShapePrimitive) (occ : Polyg),
      delPrimOpt (some t) occ =
        if obscuresPolyg occ t.toPolyg then none else some t) ∧
    (∀ (c : ShapeComponent) (occ : Polyg),
      (delCompOpt (some c) occ).isSome = true ↔
        ∃ p ∈ c.primitives, (delPrimOpt (some p) occ).isSome = true) ∧
    (∀ (s : Shape) (occ : Polyg),
      (delShapeOpt (some s) occ).isSome = true ↔
        ∃ c ∈ s.components, (delCompOpt (some c) occ).isSome = true) := by
  refine ⟨fun t occ => rfl, fun c occ => ?_, fun s occ => ?_⟩
  · simp only [delCompOpt]
    split
    · rename_i hlen
      rw [List.length_eq_zero, List.filterMap_eq_nil_iff] at hlen
      simp only [Option.isSome_none, Bool.false_eq_true, false_iff, not_exists]
      rintro p ⟨hp, hsome⟩
      rw [hlen p hp] at hsome
      cases hsome
    · rename_i hlen
      rw [List.length_eq_zero, List.filterMap_eq_nil_iff] at hlen
      push_neg at hlen
      obtain ⟨p, hp, hnone⟩ := hlen
      simp only [Option.isSome_some, true_iff]
      exact ⟨p, hp, Option.isSome_iff_ne_none.mpr hnone⟩
  · simp only [delShapeOpt]
    split
    · rename_i hlen
      rw [List.length_eq_zero, List.filterMap_eq_nil_iff] at hlen
      simp only [Option.isSome_none, Bool.false_eq_true, false_iff, not_exists]
      rintro p ⟨hp, hsome⟩
      rw [hlen p hp] at hsome
      cases hsome
    · rename_i hlen
      rw [List.length_eq_zero, List.filterMap_eq_nil_iff] at hlen
      push_neg at hlen
      obtain ⟨p, hp, hnone⟩ := hlen
      simp only [Option.isSome_some, true_iff]
      exact ⟨p, hp, Option.isSome_iff_ne_none.mpr hnone⟩

theorem filterMap_delComp (l : List ShapeComponent) (occ : Polyg) :
    l.filterMap (fun c => delCompOpt (some c) occ) =
      (l.map (fun c => ShapeComponent.mk c.normal
          (c.primitives.filter (fun p => !obscuresPolyg occ p.toPolyg)))).filter
        (fun c => !c.primitives.isEmpty) := by
  induction l with
  | nil => rfl
  | cons a as ih =>
    have ih2 : List.filterMap (fun c =>
        if (c.primitives.filter (fun p => !obscuresPolyg occ p.toPolyg)).length = 0
        then none
        else some (ShapeComponent.mk c.normal
          (c.primitives.filter (fun p => !obscuresPolyg occ p.toPolyg)))) as =
        (as.map (fun c => ShapeComponent.mk c.normal
          (c.primitives.filter (fun p => !obscuresPolyg occ p.toPolyg)))).filter
          (fun c => !c.primitives.isEmpty) := by
      rw [← ih]
      apply List.filterMap_congr
      intro c _
      rw [delComp_eq_filter]
    simp only [List.filterMap_cons, List.map_cons, List.filter_cons, delComp_eq_filter]
    by_cases h : (a.primitives.filter (fun p => !obscuresPolyg occ p.toPolyg)).length = 0
    · have he : (a.primitives.filter (fun p => !obscuresPolyg occ p.toPolyg)).isEmpty = true := by
        rw [List.length_eq_zero] at h
        simp [h]
      simp [h, he, ih2, -List.length_eq_zero, -List.filter_eq_nil_iff, -List.isEmpty_eq_true]
    · have he : (a.primitives.filter (fun p => !obscuresPolyg occ p.toPolyg)).isEmpty = false := by
        rw [List.length_eq_zero] at h
        simpa [List.isEmpty_iff] using h
      simp [h, he, ih2, -List.length_eq_zero, -List.filter_eq_nil_iff, -List.isEmpty_eq_true]

/-- C10: deletion only removes whole sub-elements, in place: every
surviving component keeps its normal and exactly the surviving primitives
(unedited, in their original relative order), and a shape's surviving
components are its original components (primitive-filtered) in order. -/
theorem C10_deletion_preserves_survivors :
    (∀ (c : ShapeComponent) (occ : Polyg) (c' : ShapeComponent),
      delCompOpt (some c) occ = some c' →
        c'.normal = c.normal ∧
        c'.primitives = c.primitives.filter (fun p => !obscuresPolyg occ p.toPolyg) ∧
        c'.primitives.Sublist c.primitives) ∧
    (∀ (s : Shape) (occ : Polyg) (s' : Shape),
      delShapeOpt (some s) occ = some s' →
        s'.components = (s.components.map (fun c => ShapeComponent.mk c.normal
            (c.primitives.filter (fun p => !obscuresPolyg occ p.toPolyg)))).filter
          (fun c => !c.primitives.isEmpty) ∧
        ∀ c' ∈ s'.components, ∃ c ∈ s.components,
          c'.normal = c.normal ∧ c'.primitives.Sublist c.primitives) := by
  constructor
  · intro c occ c' h
    rw [delComp_eq_filter] at h
    split at h
    · cases h
    · cases h
      exact ⟨rfl, rfl, List.filter_sublist _⟩
  · intro s occ s' h
    simp only [delShapeOpt] at h
    split at h
    · cases h
    · cases h
      refine ⟨filterMap_delComp _ _, ?_⟩
      intro c' hc'
      rw [filterMap_delComp] at hc'
      have hc'' := List.mem_of_mem_filter hc'
      rw [List.mem_map] at hc''
      obtain ⟨c, hc, rfl⟩ := hc''
      exact ⟨c, hc, rfl, List.filter_sublist _⟩

/-- The degenerate two-vertex "polygon" of the C8 analysis. -/
def segPrim : ShapePrimitive := ⟨[⟨.fin 0, .fin 0⟩, ⟨.fin 2, .fin 2⟩]⟩

/-- C8: the kernel has no degenerate-geometry check: `contains` silently
classifies a two-vertex polygon (here: the point `(1,1)` against the
segment `(0,0)–(2,2)` comes back `true`) instead of failing fast. -/
theorem C8_degenerate_silently_classified :
    containsPolyg segPrim.toPolyg ⟨.fin 1, .fin 1⟩ = true := by
  with_unfolding_all rfl

/-! ### Fine-grained facts about the kernel arithmetic -/

/-- A single `contains` loop step's `(lambda, mu)` after the NaN fallback,
as computed by `containsGo` on the edge `(sp1, sp2)`. -/
def stepLM (p sp1 sp2 dir : FV2) : F × F :=
  let edge := FV2.sub sp2 sp1
  let lm0 := intersection_parameters sp1 edge p dir
  if F.isNaN lm0.1 || F.isNaN lm0.2 then intersection_parameters sp1 edge p dirY
  else lm0

/-- Shorthand for a `Vec2<f64>` with exact rational coordinates. -/
def fv (a b : ℚ) : FV2 := ⟨.fin a, .fin b⟩

theorem FV2.sub_fv (a b c d : ℚ) : FV2.sub (fv a b) (fv c d) = fv (a - c) (b - d) := rfl

theorem F.mul_fin_zero_right (p : ℚ) :
    F.mul (.fin p) (.fin 0) = if p < 0 then F.nzero else F.fin 0 := by
  simp [F.mul]

theorem F.mul_fin_zero_left (p : ℚ) :
    F.mul (.fin 0) (.fin p) = if p < 0 then F.nzero else F.fin 0 := by
  simp [F.mul]

theorem F.mul_fin_one_right (p : ℚ) : F.mul (.fin p) (.fin 1) = .fin p := by
  by_cases h : p = 0 <;> simp [F.mul, h]

theorem F.mul_fin_one_left (p : ℚ) : F.mul (.fin 1) (.fin p) = .fin p := by
  by_cases h : p = 0 <;> simp [F.mul, h]

theorem F.sub_fin_fin (p q : ℚ) : F.sub (.fin p) (.fin q) = .fin (p - q) := rfl

theorem F.sub_nzero_fin (q : ℚ) :
    F.sub .nzero (.fin q) = if q = 0 then F.nzero else F.fin (-q) := rfl

theorem F.sub_fin_nzero (p : ℚ) : F.sub (.fin p) .nzero = .fin p := rfl

/-- Evaluation of `cross(v, (1,0))` for a finite vector. -/
theorem cross_dirX (u v : ℚ) :
    FV2.cross (fv u v) dirX =
      if v = 0 then (if u < 0 then F.nzero else F.fin 0) else F.fin (-v) := by
  simp only [FV2.cross, fv, dirX, F.mul_fin_zero_right, F.mul_fin_one_right]
  by_cases hv : v = 0 <;> by_cases hu : u < 0 <;>
    simp [hv, hu, F.sub_nzero_fin, F.sub_fin_fin]

/-- Evaluation of `cross(v, (0,1))` for a finite vector. -/
theorem cross_dirY (u v : ℚ) : FV2.cross (fv u v) dirY = F.fin u := by
  simp only [FV2.cross, fv, dirY, F.mul_fin_zero_right, F.mul_fin_one_right]
  by_cases hv : v < 0 <;> simp [hv, F.sub_fin_nzero, F.sub_fin_fin]

/-- Evaluation of `cross((1,0), v)` for a finite vector. -/
theorem dirX_cross (u v : ℚ) : FV2.cross dirX (fv u v) = F.fin v := by
  simp only [FV2.cross, fv, dirX, F.mul_fin_zero_left, F.mul_fin_one_left]
  by_cases hu : u < 0 <;> simp [hu, F.sub_fin_nzero, F.sub_fin_fin]

/-- Evaluation of `cross((0,1), v)` for a finite vector. -/
theorem dirY_cross (u v : ℚ) :
    FV2.cross dirY (fv u v) =
      if u = 0 then (if v < 0 then F.nzero else F.fin 0) else F.fin (-u) := by
  simp only [FV2.cross, fv, dirY, F.mul_fin_zero_left, F.mul_fin_one_left]
  by_cases hu : u = 0 <;> by_cases hv : v < 0 <;>
    simp [hu, hv, F.sub_nzero_fin, F.sub_fin_fin]

theorem F.sub_isZero {a b : F} (ha : a.isZero = true) (hb : b.isZero = true) :
    (F.sub a b).isZero = true := by
  cases a <;> cases b <;> simp_all [F.isZero, F.sub]

/-- Evaluation of `cross((0,0), w)` is a zero for finite `w`. -/
theorem cross_zero_left (u v : ℚ) : (FV2.cross (fv 0 0) (fv u v)).isZero = true := by
  simp only [FV2.cross, fv, F.mul_fin_zero_left]
  apply F.sub_isZero <;> split <;> simp [F.isZero]

/-- Evaluation of `cross(-w, w)` is a zero for finite `w`. -/
theorem cross_neg_self (u v : ℚ) : (FV2.cross (fv (-u) (-v)) (fv u v)).isZero = true := by
  simp only [FV2.cross, fv]
  by_cases hu : u = 0 <;> by_cases hv : v = 0
  · subst hu; subst hv
    simp only [neg_zero, F.mul_fin_zero_right]
    apply F.sub_isZero <;> split <;> simp [F.isZero]
  · subst hu
    simp only [neg_zero, F.mul_fin_zero_left]
    have h1 : F.mul (.fin (-v)) (.fin 0) = if -v < 0 then F.nzero else F.fin 0 :=
      F.mul_fin_zero_right _
    rw [h1]
    apply F.sub_isZero <;> split <;> simp [F.isZero]
  · subst hv
    simp only [neg_zero, F.mul_fin_zero_right, F.mul_fin_zero_left]
    apply F.sub_isZero <;> split <;> simp [F.isZero]
  · have h1 : F.mul (.fin (-u)) (.fin v) = .fin (-u * v) := by
      simp [F.mul, hu, hv]
    have h2 : F.mul (.fin (-v)) (.fin u) = .fin (-v * u) := by
      simp [F.mul, hu, hv]
    rw [h1, h2, F.sub_fin_fin]
    simp [F.isZero]
    ring

theorem F.isNaN_of_isZero {a : F} (h : a.isZero = true) : a.isNaN = false := by
  cases a <;> simp_all [F.isZero, F.isNaN]

theorem F.div_zero_fin {a : F} (q : ℚ) (ha : a.isZero = true) (hq : q ≠ 0) :
    (F.div a (.fin q)).isZero = true := by
  cases a with
  | nan => simp [F.isZero] at ha
  | pinf => simp [F.isZero] at ha
  | ninf => simp [F.isZero] at ha
  | nzero =>
    by_cases hs : F.nzero.signbit ≠ (F.fin q).signbit <;>
      simp [F.div, F.isZero, hq, hs]
  | fin p =>
    have hp : p = 0 := by simpa [F.isZero] using ha
    subst hp
    by_cases hs : (F.fin 0).signbit ≠ (F.fin q).signbit <;>
      simp [F.div, F.isZero, hq, hs]

theorem F.div_zero_zero {a b : F} (ha : a.isZero = true) (hb : b.isZero = true) :
    F.div a b = .nan := by
  cases a <;> cases b <;> simp_all [F.isZero, F.div]

theorem F.div_fin_self (q : ℚ) (hq : q ≠ 0) : F.div (.fin q) (.fin q) = .fin 1 := by
  simp [F.div, F.isZero, hq, F.qval, div_self hq]

/-- The boundary test of `contains` passes when both parameters are zeros. -/
theorem boundary_of_zeros {lam mu : F} (hl : lam.isZero = true) (hm : mu.isZero = true) :
    (F.fle (.fin 0) lam && F.fle lam (.fin 1) && F.feq mu (.fin 0)) = true := by
  cases lam <;> cases mu <;>
    simp_all [F.isZero, F.fle, F.feq, F.qval]

/-- The boundary test of `contains` passes when `lambda = 1` and `mu` is a zero. -/
theorem boundary_of_one {mu : F} (hm : mu.isZero = true) :
    (F.fle (.fin 0) (.fin 1) && F.fle (.fin 1) (.fin 1) && F.feq mu (.fin 0)) = true := by
  cases mu <;> simp_all [F.isZero, F.fle, F.feq, F.qval]

theorem inter_eq (p1 d1 p2 d2 : FV2) :
    intersection_parameters p1 d1 p2 d2 =
      (F.div (FV2.cross (FV2.sub p2 p1) d2) (FV2.cross d1 d2),
       F.div (FV2.cross (FV2.sub p1 p2) d1) (FV2.cross d2 d1)) := rfl

theorem stepLM_no_nan {p sp1 sp2 dir : FV2}
    (h1 : (intersection_parameters sp1 (FV2.sub sp2 sp1) p dir).1.isNaN = false)
    (h2 : (intersection_parameters sp1 (FV2.sub sp2 sp1) p dir).2.isNaN = false) :
    stepLM p sp1 sp2 dir = intersection_parameters sp1 (FV2.sub sp2 sp1) p dir := by
  simp [stepLM, h1, h2]

theorem stepLM_nan {p sp1 sp2 dir : FV2}
    (h : (intersection_parameters sp1 (FV2.sub sp2 sp1) p dir).1.isNaN = true ∨
         (intersection_parameters sp1 (FV2.sub sp2 sp1) p dir).2.isNaN = true) :
    stepLM p sp1 sp2 dir = intersection_parameters sp1 (FV2.sub sp2 sp1) p dirY := by
  rcases h with h | h <;> simp [stepLM, h]

/-- Under direction `(0,1)`, an edge starting at the query point with
nonzero x-extent yields zero intersection parameters. -/
theorem outgoing_dirY_zeros (a b c d : ℚ) (hne : c - a ≠ 0) :
    (intersection_parameters (fv a b) (FV2.sub (fv c d) (fv a b)) (fv a b) dirY).1.isZero = true ∧
    (intersection_parameters (fv a b) (FV2.sub (fv c d) (fv a b)) (fv a b) dirY).2.isZero = true := by
  have hself : FV2.sub (fv a b) (fv a b) = fv 0 0 := by rw [FV2.sub_fv]; simp [fv]
  have hedge : FV2.sub (fv c d) (fv a b) = fv (c - a) (d - b) := FV2.sub_fv _ _ _ _
  rw [inter_eq, hself, hedge]
  constructor
  · have hn : FV2.cross (fv 0 0) dirY = F.fin 0 := cross_dirY 0 0
    have hd : FV2.cross (fv (c - a) (d - b)) dirY = F.fin (c - a) := cross_dirY _ _
    rw [hn, hd]
    exact F.div_zero_fin _ (show (F.fin 0).isZero = true by simp [F.isZero]) hne
  · have hd : FV2.cross dirY (fv (c - a) (d - b)) = F.fin (-(c - a)) := by
      rw [dirY_cross, if_neg hne]
    rw [hd]
    exact F.div_zero_fin _ (cross_zero_left _ _) (by intro h; apply hne; linarith)

/-- When the query point is the start vertex of an edge with nonzero
x-extent, the (possibly fallback-retried) step parameters pass the
boundary test, for either reachable ray direction. -/
theorem step_boundary_outgoing (a b c d : ℚ) (hne : c - a ≠ 0) (dir : FV2)
    (hdir : dir = dirX ∨ dir = dirY) :
    (F.fle (.fin 0) (stepLM (fv a b) (fv a b) (fv c d) dir).1 &&
     F.fle (stepLM (fv a b) (fv a b) (fv c d) dir).1 (.fin 1) &&
     F.feq (stepLM (fv a b) (fv a b) (fv c d) dir).2 (.fin 0)) = true := by
  have hself : FV2.sub (fv a b) (fv a b) = fv 0 0 := by rw [FV2.sub_fv]; simp [fv]
  have hedge : FV2.sub (fv c d) (fv a b) = fv (c - a) (d - b) := FV2.sub_fv _ _ _ _
  obtain ⟨hY1, hY2⟩ := outgoing_dirY_zeros a b c d hne
  rcases hdir with rfl | rfl
  · by_cases hey : d - b = 0
    · -- horizontal edge: 0/0 is NaN under (1,0); the step retries with (0,1)
      have hlamnan :
          (intersection_parameters (fv a b) (FV2.sub (fv c d) (fv a b)) (fv a b) dirX).1
            = F.nan := by
        rw [inter_eq, hself, hedge]
        have hn : FV2.cross (fv 0 0) dirX = F.fin 0 := by
          rw [cross_dirX]
          simp
        have hd : FV2.cross (fv (c - a) (d - b)) dirX =
            (if c - a < 0 then F.nzero else F.fin 0) := by
          rw [cross_dirX, if_pos hey]
        rw [hn, hd]
        exact F.div_zero_zero (by simp [F.isZero]) (by split <;> simp [F.isZero])
      rw [stepLM_nan (Or.inl (by rw [hlamnan]; rfl))]
      exact boundary_of_zeros hY1 hY2
    · -- non-horizontal edge: zero parameters directly under (1,0)
      have hlam :
          (intersection_parameters (fv a b) (FV2.sub (fv c d) (fv a b)) (fv a b) dirX).1.isZero
            = true := by
        rw [inter_eq, hself, hedge]
        have hn : FV2.cross (fv 0 0) dirX = F.fin 0 := by
          rw [cross_dirX]
          simp
        have hd : FV2.cross (fv (c - a) (d - b)) dirX = F.fin (-(d - b)) := by
          rw [cross_dirX, if_neg hey]
        rw [hn, hd]
        exact F.div_zero_fin _ (show (F.fin 0).isZero = true by simp [F.isZero]) (by intro h; apply hey; linarith)
      have hmu :
          (intersection_parameters (fv a b) (FV2.sub (fv c d) (fv a b)) (fv a b) dirX).2.isZero
            = true := by
        rw [inter_eq, hself, hedge]
        have hd : FV2.cross dirX (fv (c - a) (d - b)) = F.fin (d - b) := dirX_cross _ _
        rw [hd]
        exact F.div_zero_fin _ (cross_zero_left _ _) hey
      rw [stepLM_no_nan (F.isNaN_of_isZero hlam) (F.isNaN_of_isZero hmu)]
      exact boundary_of_zeros hlam hmu
  · rw [stepLM_no_nan (F.isNaN_of_isZero hY1) (F.isNaN_of_isZero hY2)]
    exact boundary_of_zeros hY1 hY2

/-- Under direction `(0,1)`, an edge ending at the query point with nonzero
x-extent yields `lambda = 1` and a zero `mu`. -/
theorem incoming_dirY (a b c d : ℚ) (hne : c - a ≠ 0) :
    (intersection_parameters (fv a b) (FV2.sub (fv c d) (fv a b)) (fv c d) dirY).1 = F.fin 1 ∧
    (intersection_parameters (fv a b) (FV2.sub (fv c d) (fv a b)) (fv c d) dirY).2.isZero = true := by
  have hedge : FV2.sub (fv c d) (fv a b) = fv (c - a) (d - b) := FV2.sub_fv _ _ _ _
  have hback : FV2.sub (fv a b) (fv c d) = fv (-(c - a)) (-(d - b)) := by
    rw [FV2.sub_fv, show a - c = -(c - a) by ring, show b - d = -(d - b) by ring]
  rw [inter_eq, hedge, hback]
  constructor
  · have h1 : FV2.cross (fv (c - a) (d - b)) dirY = F.fin (c - a) := cross_dirY _ _
    show F.div (FV2.cross (fv (c - a) (d - b)) dirY) (FV2.cross (fv (c - a) (d - b)) dirY)
      = F.fin 1
    rw [h1]
    exact F.div_fin_self _ hne
  · have hd : FV2.cross dirY (fv (c - a) (d - b)) = F.fin (-(c - a)) := by
      rw [dirY_cross, if_neg hne]
    show (F.div (FV2.cross (fv (-(c - a)) (-(d - b))) (fv (c - a) (d - b)))
      (FV2.cross dirY (fv (c - a) (d - b)))).isZero = true
    rw [hd]
    exact F.div_zero_fin _ (cross_neg_self _ _) (by intro h; apply hne; linarith)

/-- When the query point is the end vertex of an edge with nonzero
x-extent, the step parameters pass the boundary test, for either
reachable ray direction. -/
theorem step_boundary_incoming (a b c d : ℚ) (hne : c - a ≠ 0) (dir : FV2)
    (hdir : dir = dirX ∨ dir = dirY) :
    (F.fle (.fin 0) (stepLM (fv c d) (fv a b) (fv c d) dir).1 &&
     F.fle (stepLM (fv c d) (fv a b) (fv c d) dir).1 (.fin 1) &&
     F.feq (stepLM (fv c d) (fv a b) (fv c d) dir).2 (.fin 0)) = true := by
  have hedge : FV2.sub (fv c d) (fv a b) = fv (c - a) (d - b) := FV2.sub_fv _ _ _ _
  have hback : FV2.sub (fv a b) (fv c d) = fv (-(c - a)) (-(d - b)) := by
    rw [FV2.sub_fv, show a - c = -(c - a) by ring, show b - d = -(d - b) by ring]
  obtain ⟨hY1, hY2⟩ := incoming_dirY a b c d hne
  rcases hdir with rfl | rfl
  · by_cases hey : d - b = 0
    · -- horizontal edge: 0/0 is NaN under (1,0); the step retries with (0,1)
      have hlamnan :
          (intersection_parameters (fv a b) (FV2.sub (fv c d) (fv a b)) (fv c d) dirX).1
            = F.nan := by
        rw [inter_eq, hedge]
        have hz : FV2.cross (fv (c - a) (d - b)) dirX =
            (if c - a < 0 then F.nzero else F.fin 0) := by
          rw [cross_dirX, if_pos hey]
        rw [hz]
        exact F.div_zero_zero (by split <;> simp [F.isZero]) (by split <;> simp [F.isZero])
      rw [stepLM_nan (Or.inl (by rw [hlamnan]; rfl))]
      rw [hY1]
      exact boundary_of_one hY2
    · have hlam :
          (intersection_parameters (fv a b) (FV2.sub (fv c d) (fv a b)) (fv c d) dirX).1
            = F.fin 1 := by
        rw [inter_eq, hedge]
        have hz : FV2.cross (fv (c - a) (d - b)) dirX = F.fin (-(d - b)) := by
          rw [cross_dirX, if_neg hey]
        rw [hz]
        exact F.div_fin_self _ (by intro h; apply hey; linarith)
      have hmu :
          (intersection_parameters (fv a b) (FV2.sub (fv c d) (fv a b)) (fv c d) dirX).2.isZero
            = true := by
        rw [inter_eq, hedge, hback]
        have hd : FV2.cross dirX (fv (c - a) (d - b)) = F.fin (d - b) := dirX_cross _ _
        rw [hd]
        exact F.div_zero_fin _ (cross_neg_self _ _) hey
      rw [stepLM_no_nan (by rw [hlam]; rfl) (F.isNaN_of_isZero hmu)]
      rw [hlam]
      exact boundary_of_one hmu
  · rw [stepLM_no_nan (by rw [hY1]; rfl) (F.isNaN_of_isZero hY2)]
    rw [hY1]
    exact boundary_of_one hY2

/-- Unfolding of one `containsGo` step in terms of `stepLM`. -/
theorem containsGo_cons (p sp0 sp1 sp2 : FV2) (rest : List (FV2 × FV2)) (dir : FV2) (n : ℕ) :
    containsGo p ((sp1, sp2) :: rest) sp0 dir n =
      if F.fle (.fin 0) (stepLM p sp1 sp2 dir).1 &&
          F.fle (stepLM p sp1 sp2 dir).1 (.fin 1) &&
          F.feq (stepLM p sp1 sp2 dir).2 (.fin 0) then
        true
      else
        containsGo p rest sp1
          (if F.isNaN (intersection_parameters sp1 (FV2.sub sp2 sp1) p dir).1 ||
              F.isNaN (intersection_parameters sp1 (FV2.sub sp2 sp1) p dir).2
           then dirY else dir)
          (if ((F.flt (.fin 0) (stepLM p sp1 sp2 dir).1 &&
                F.flt (stepLM p sp1 sp2 dir).1 (.fin 1)) ||
               (F.feq (stepLM p sp1 sp2 dir).1 (.fin 0) &&
                F.feq (F.fsignum (FV2.cross (FV2.sub sp1 sp0)
                    (if F.isNaN (intersection_parameters sp1 (FV2.sub sp2 sp1) p dir).1 ||
                        F.isNaN (intersection_parameters sp1 (FV2.sub sp2 sp1) p dir).2
                     then dirY else dir)))
                  (F.fsignum (FV2.cross (FV2.sub sp2 sp1)
                    (if F.isNaN (intersection_parameters sp1 (FV2.sub sp2 sp1) p dir).1 ||
                        F.isNaN (intersection_parameters sp1 (FV2.sub sp2 sp1) p dir).2
                     then dirY else dir))))) &&
              F.flt (.fin 0) (stepLM p sp1 sp2 dir).2
           then n + 1 else n) := rfl

/-- If some edge of the list starts or ends at `p` and has nonzero
x-extent, the `contains` loop reports `true` (from any direction the loop
can be in). -/
theorem containsGo_true_of_detecting_edge (p : FV2) :
    ∀ (edges : List (FV2 × FV2)) (sp0 dir : FV2) (n : ℕ),
      (dir = dirX ∨ dir = dirY) →
      (∃ e ∈ edges, ∃ a b c d : ℚ,
        e = (fv a b, fv c d) ∧ c - a ≠ 0 ∧ (p = fv a b ∨ p = fv c d)) →
      containsGo p edges sp0 dir n = true := by
  intro edges
  induction edges with
  | nil =>
    intro sp0 dir n hdir hex
    simp at hex
  | cons e rest ih =>
    intro sp0 dir n hdir hex
    obtain ⟨e', he', a, b, c, d, he'eq, hne, hp⟩ := hex
    rcases List.mem_cons.mp he' with rfl | htail
    · subst he'eq
      rcases hp with rfl | rfl
      · rw [containsGo_cons, if_pos (step_boundary_outgoing a b c d hne dir hdir)]
      · rw [containsGo_cons, if_pos (step_boundary_incoming a b c d hne dir hdir)]
    · obtain ⟨sp1, sp2⟩ := e
      rw [containsGo_cons]
      split
      · rfl
      · apply ih
        · split
          · right; rfl
          · exact hdir
        · exact ⟨e', htail, a, b, c, d, he'eq, hne, hp⟩

theorem circAux_map (f : α → β) (first : α) :
    ∀ l : List α, circAux (f first) (l.map f) =
      (circAux first l).map (fun e => (f e.1, f e.2))
  | [] => rfl
  | [a] => rfl
  | a :: b :: rest => by
    simp only [List.map_cons, circAux]
    rw [← List.map_cons f b rest]
    rw [circAux_map f first (b :: rest)]

theorem circWindows_map (f : α → β) (l : List α) :
    circWindows (l.map f) = (circWindows l).map (fun e => (f e.1, f e.2)) := by
  cases l with
  | nil => rfl
  | cons a rest =>
    simp only [List.map_cons, circWindows]
    rw [← List.map_cons f a rest]
    exact circAux_map f a (a :: rest)

/-- A primitive built from exact rational coordinates. -/
def primOfQ (pts : List (ℚ × ℚ)) : ShapePrimitive :=
  ⟨pts.map (fun q => fv q.1 q.2)⟩

/-- The polygon of the C4 analysis: a simple (non-self-intersecting)
heptagon whose left side contains the three collinear vertices
`(0,4), (0,1), (0,0)`, with a horizontal edge at the height of `(0,1)`
appearing earlier in the edge order. -/
def pstar : ShapePrimitive :=
  primOfQ [(3, 1), (4, 1), (4, 4), (0, 4), (0, 1), (0, 0), (3, 0)]

/-- C4 counterexample: `obscures(P, P)` is `false` for the simple polygon
`pstar` — the vertex `(0,1)` classifies as outside, because the horizontal
edge at `y = 1` flips the ray direction to `(0,1)` early and both edges
adjacent to `(0,1)` are vertical, so its boundary test is never hit. -/
theorem C4_counterexample :
    containsPolyg pstar.toPolyg (fv 0 1) = false ∧
    obscuresPolyg pstar.toPolyg pstar.toPolyg = false := by
  constructor
  · with_unfolding_all rfl
  · with_unfolding_all rfl

/-- C4 amended: `obscures` is exactly vertex-sampling containment, and
`Encloses(P, P)` holds for every nonempty polygon in which each vertex is
an endpoint of at least one non-vertical edge (in particular for every
simple polygon without three cyclically-consecutive vertices of equal x).
The unrestricted reflexivity claim is refuted by `C4_counterexample`. -/
theorem C4_encloses_amended :
    (∀ a b : Polyg, obscuresPolyg a b = true ↔
      ∀ p ∈ b.pts, containsPolyg a p = true) ∧
    (∀ pts : List (ℚ × ℚ), pts ≠ [] →
      (∀ v ∈ pts, ∃ e ∈ circWindows pts, (e.1 = v ∨ e.2 = v) ∧ e.1.1 ≠ e.2.1) →
      obscuresPolyg (primOfQ pts).toPolyg (primOfQ pts).toPolyg = true) := by
  constructor
  · intro a b
    simp [obscuresPolyg, List.all_eq_true]
  · intro pts hne hadj
    rw [obscuresPolyg, List.all_eq_true]
    intro p hp
    simp only [primOfQ, ShapePrimitive.toPolyg, List.mem_map] at hp
    obtain ⟨v, hv, rfl⟩ := hp
    obtain ⟨e, he, hev, hex⟩ := hadj v hv
    rw [containsPolyg]
    have hlast : ((primOfQ pts).toPolyg.pts).getLast? ≠ none := by
      simp only [primOfQ, ShapePrimitive.toPolyg]
      rw [Ne, List.getLast?_eq_none_iff, List.map_eq_nil_iff]
      exact hne
    obtain ⟨sp0, hsp0⟩ := Option.ne_none_iff_exists'.mp hlast
    rw [hsp0]
    apply containsGo_true_of_detecting_edge
    · left; rfl
    · refine ⟨(fv e.1.1 e.1.2, fv e.2.1 e.2.2), ?_, e.1.1, e.1.2, e.2.1, e.2.2,
        rfl, ?_, ?_⟩
      · simp only [primOfQ, ShapePrimitive.toPolyg]
        rw [circWindows_map]
        rw [List.mem_map]
        exact ⟨e, he, rfl⟩
      · intro h
        apply hex
        linarith
      · rcases hev with h | h
        · left; rw [← h]
        · right; rw [← h]

/-- Witness for the amended C4 theorem at the unit square. -/
theorem C4_encloses_amended_witness :
    obscuresPolyg (primOfQ [(1, 1), (-1, 1), (-1, -1), (1, -1)]).toPolyg
      (primOfQ [(1, 1), (-1, 1), (-1, -1), (1, -1)]).toPolyg = true := by
  apply C4_encloses_amended.2
  · simp
  · intro v hv
    simp only [circWindows, circAux]
    rcases List.mem_cons.mp hv with rfl | hv
    · exact ⟨((1, 1), (-1, 1)), by simp, by norm_num⟩
    rcases List.mem_cons.mp hv with rfl | hv
    · exact ⟨((1, 1), (-1, 1)), by simp, by norm_num⟩
    rcases List.mem_cons.mp hv with rfl | hv
    · exact ⟨((-1, -1), (1, -1)), by simp, by norm_num⟩
    rcases List.mem_cons.mp hv with rfl | hv
    · exact ⟨((-1, -1), (1, -1)), by simp, by norm_num⟩
    · simp at hv

/-- The polygon of the C5 analysis: a simple hexagon (a rectangle with a
notch) whose top edge crosses the upward ray from `(0,0)` and whose
`y = 0` edge triggers the NaN fallback mid-loop. -/
def p5star : ShapePrimitive :=
  primOfQ [(1, 1), (-3, 1), (-3, 0), (-2, 0), (-2, -1), (1, -1)]

/-- C5 counterexample: the mixed-direction classification of the source
(`contains`, which starts with `(1,0)` and flips to `(0,1)` mid-polygon)
differs from a full classification with the fallback direction `(0,1)`:
for `p5star` and the interior point `(0,0)` the source reports `false`
while the full fallback classification reports `true`. -/
theorem C5_counterexample :
    containsFromDir dirX = containsPolyg ∧
    containsPolyg p5star.toPolyg (fv 0 0) = false ∧
    containsFromDir dirY p5star.toPolyg (fv 0 0) = true := by
  refine ⟨rfl, ?_, ?_⟩
  · with_unfolding_all rfl
  · with_unfolding_all rfl

/-- C5 amended: when the intersection parameters of the current edge are
NaN under the initial direction `(1,0)`, the loop continues exactly as if
the direction had been the fallback `(0,1)` from this edge on — the
fallback applies to the offending edge and globally to all later edges of
the polygon (the direction never reverts); edges processed before the NaN
keep their `(1,0)` contribution, so the final result need not equal a full
fallback classification (see `C5_counterexample`). -/
theorem C5_global_fallback_amended (p sp0 sp1 sp2 : FV2) (rest : List (FV2 × FV2)) (n : ℕ)
    (hnan : (F.isNaN (intersection_parameters sp1 (FV2.sub sp2 sp1) p dirX).1 ||
             F.isNaN (intersection_parameters sp1 (FV2.sub sp2 sp1) p dirX).2) = true) :
    containsGo p ((sp1, sp2) :: rest) sp0 dirX n =
    containsGo p ((sp1, sp2) :: rest) sp0 dirY n := by
  have hsx : stepLM p sp1 sp2 dirX =
      intersection_parameters sp1 (FV2.sub sp2 sp1) p dirY := by
    apply stepLM_nan
    rcases Bool.or_eq_true_iff.mp hnan with h | h
    · exact Or.inl h
    · exact Or.inr h
  have hsy : stepLM p sp1 sp2 dirY =
      intersection_parameters sp1 (FV2.sub sp2 sp1) p dirY := by
    by_cases h : (F.isNaN (intersection_parameters sp1 (FV2.sub sp2 sp1) p dirY).1 ||
        F.isNaN (intersection_parameters sp1 (FV2.sub sp2 sp1) p dirY).2) = true
    · apply stepLM_nan
      rcases Bool.or_eq_true_iff.mp h with h' | h'
      · exact Or.inl h'
      · exact Or.inr h'
    · rw [Bool.or_eq_true_iff] at h
      push_neg at h
      exact stepLM_no_nan (Bool.not_eq_true _ ▸ h.1) (Bool.not_eq_true _ ▸ h.2)
  rw [containsGo_cons, containsGo_cons, hsx, hsy, hnan]
  simp only [if_true, ite_self]

/-- Witness for the amended C5 theorem: a horizontal edge collinear with
the query point produces NaN parameters under `(1,0)`. -/
theorem C5_global_fallback_amended_witness :
    containsGo (fv 2 0) [(fv 0 0, fv 1 0)] (fv 5 5) dirX 0 =
    containsGo (fv 2 0) [(fv 0 0, fv 1 0)] (fv 5 5) dirY 0 :=
  C5_global_fallback_amended _ _ _ _ _ _ (by with_unfolding_all rfl)

/-- An empty `Polygonal` occluder (no points, no lines). -/
def occEmpty : Polyg := ⟨[], []⟩

/-- A one-primitive component used to witness the C10 theorem. -/
def witComp : ShapeComponent :=
  ⟨⟨.fin 0, .fin 0, .fin 1⟩, [ShapePrimitive.mk [fv 0 0]]⟩

/-- Witness for the C10 theorem: a component that survives an empty
occluder keeps its normal and primitive list. -/
theorem C10_deletion_preserves_survivors_witness :
    witComp.normal = witComp.normal ∧
    witComp.primitives =
      witComp.primitives.filter (fun p => !obscuresPolyg occEmpty p.toPolyg) ∧
    witComp.primitives.Sublist witComp.primitives :=
  C10_deletion_preserves_survivors.1 witComp occEmpty witComp (by with_unfolding_all rfl)

/-! ### Decoder lemmas for the move-command claims -/

theorem QV2.eta (v : QV2) : (⟨v.x, v.y⟩ : QV2) = v := rfl

theorem getD_getLast?_cons (a d : α) (l : List α) :
    (a :: l).getLast?.getD d = l.getLast?.getD a := by
  induction l generalizing a d with
  | nil => simp
  | cons b t ih =>
    calc (a :: b :: t).getLast?.getD d = (b :: t).getLast?.getD d := by
          rw [List.getLast?_cons_cons]
      _ = t.getLast?.getD b := ih b d
      _ = (b :: t).getLast?.getD a := (ih b a).symm

theorem decodePairsAbs_flat (cur : QV2) (ps : List QV2) :
    decodePairsAbs cur (flatPairs ps) =
      some (ps.map (fun q => (q, false)), ps.getLastD cur) := by
  induction ps generalizing cur with
  | nil => rfl
  | cons q qs ih =>
    simp [flatPairs, decodePairsAbs, QV2.eta, ih q, getD_getLast?_cons]

/-- The cumulative points decoded from a run of relative coordinate pairs. -/
def relChain (cur : QV2) : List QV2 → List QV2
  | [] => []
  | p :: ps => ⟨cur.x + p.x, cur.y + p.y⟩ :: relChain ⟨cur.x + p.x, cur.y + p.y⟩ ps

theorem decodePairsRel_flat (cur : QV2) (ps : List QV2) :
    decodePairsRel cur (flatPairs ps) =
      some ((relChain cur ps).map (fun q => (q, false)), (relChain cur ps).getLastD cur) := by
  induction ps generalizing cur with
  | nil => rfl
  | cons q qs ih =>
    simp [flatPairs, decodePairsRel, relChain, ih, getD_getLast?_cons]

/-- C6: all coordinate pairs of one `M`/`m` command after the first are
implicit line-to operations of the same absolute/relative kind: decoding
the single command emits every pair as a non-boundary point (absolute set,
or relative add over the running point), the subpath start becomes exactly
the first pair, and the current point ends at the last pair. -/
theorem C6_move_implicit_lineto :
    (∀ (p : QV2) (ps : List QV2) (cur start : QV2),
      decodeCommands [Command.mk .MoveToAbs (flatPairs (p :: ps))] cur start =
        some ((p :: ps).map (fun q => (q, false)), ps.getLastD p, p)) ∧
    (∀ (p : QV2) (ps : List QV2) (cur start : QV2),
      decodeCommands [Command.mk .MoveToRel (flatPairs (p :: ps))] cur start =
        some ((relChain cur (p :: ps)).map (fun q => (q, false)),
          (relChain ⟨cur.x + p.x, cur.y + p.y⟩ ps).getLastD ⟨cur.x + p.x, cur.y + p.y⟩,
          (⟨cur.x + p.x, cur.y + p.y⟩ : QV2))) := by
  constructor
  · intro p ps cur start
    simp [decodeCommands, runCommand, flatPairs, QV2.eta, decodePairsAbs_flat]
  · intro p ps cur start
    simp [decodeCommands, runCommand, flatPairs, relChain, decodePairsRel_flat]

/-! ### Round-trip lemmas: the encoder command stream decodes to the
original point list -/

theorem collectV_append (cur : QV2) (l : List QV2) :
    l = (collectV cur l).1 ++
      (match (collectV cur l).2.2 with
       | some (p, rest) => p :: rest
       | none => []) := by
  induction l generalizing cur with
  | nil => rfl
  | cons p ps ih =>
    simp only [collectV]
    by_cases h : p.x = cur.x
    · simp only [h, if_pos]
      exact congrArg (p :: ·) (ih p)
    · simp [h]

theorem collectV_runLast (cur : QV2) (l : List QV2) :
    (collectV cur l).2.1 = (collectV cur l).1.getLastD cur := by
  induction l generalizing cur with
  | nil => rfl
  | cons p ps ih =>
    simp only [collectV]
    by_cases h : p.x = cur.x
    · simp only [h, if_pos, List.getLastD_cons]
      exact ih p
    · simp [h]

theorem collectH_append (cur : QV2) (l : List QV2) :
    l = (collectH cur l).1 ++
      (match (collectH cur l).2.2 with
       | some (p, rest) => p :: rest
       | none => []) := by
  induction l generalizing cur with
  | nil => rfl
  | cons p ps ih =>
    simp only [collectH]
    by_cases h : p.y = cur.y
    · simp only [h, if_pos]
      exact congrArg (p :: ·) (ih p)
    · simp [h]

theorem collectH_runLast (cur : QV2) (l : List QV2) :
    (collectH cur l).2.1 = (collectH cur l).1.getLastD cur := by
  induction l generalizing cur with
  | nil => rfl
  | cons p ps ih =>
    simp only [collectH]
    by_cases h : p.y = cur.y
    · simp only [h, if_pos, List.getLastD_cons]
      exact ih p
    · simp [h]

theorem collectL_append (cur : QV2) (l : List QV2) :
    l = (collectL cur l).1 ++
      (match (collectL cur l).2.2 with
       | some (p, rest) => p :: rest
       | none => []) := by
  induction l generalizing cur with
  | nil => rfl
  | cons p ps ih =>
    simp only [collectL]
    by_cases h : p.x ≠ cur.x ∨ p.y ≠ cur.y
    · simp only [h, if_pos]
      exact congrArg (p :: ·) (ih p)
    · simp [h]

theorem collectL_runLast (cur : QV2) (l : List QV2) :
    (collectL cur l).2.1 = (collectL cur l).1.getLastD cur := by
  induction l generalizing cur with
  | nil => rfl
  | cons p ps ih =>
    simp only [collectL]
    by_cases h : p.x ≠ cur.x ∨ p.y ≠ cur.y
    · simp only [h, if_pos, List.getLastD_cons]
      exact ih p
    · simp [h]

theorem moveParams_append (cur : QV2) (l : List QV2) :
    l = (moveParams cur l).1 ++
      (match (moveParams cur l).2 with
       | some (_, c, rest) => c :: rest
       | none => []) := by
  induction l generalizing cur with
  | nil => rfl
  | cons p ps ih =>
    simp only [moveParams]
    by_cases h : p.x = cur.x ∨ p.y = cur.y
    · simp [h]
    · simp only [h, if_neg, Bool.false_eq_true, not_false_iff]
      exact congrArg (p :: ·) (ih p)

theorem moveParams_some_last (cur : QV2) (l : List QV2) (la c : QV2) (rest : List QV2)
    (h : (moveParams cur l).2 = some (la, c, rest)) :
    la = (moveParams cur l).1.getLastD cur := by
  induction l generalizing cur with
  | nil => simp [moveParams] at h
  | cons p ps ih =>
    simp only [moveParams] at h ⊢
    by_cases hc : p.x = cur.x ∨ p.y = cur.y
    · simp only [hc, if_pos] at h ⊢
      cases h
      rfl
    · simp only [hc, if_neg, Bool.false_eq_true, not_false_iff] at h ⊢
      simp only [List.getLastD_cons]
      exact ih p h

theorem decodeYsAbs_cons (cur : QV2) (v : ℚ) (rest : List ℚ) :
    decodeYsAbs cur (v :: rest) =
      ((⟨cur.x, v⟩, false) :: (decodeYsAbs ⟨cur.x, v⟩ rest).1,
       (decodeYsAbs ⟨cur.x, v⟩ rest).2) := rfl

theorem decodeXsAbs_cons (cur : QV2) (v : ℚ) (rest : List ℚ) :
    decodeXsAbs cur (v :: rest) =
      ((⟨v, cur.y⟩, false) :: (decodeXsAbs ⟨v, cur.y⟩ rest).1,
       (decodeXsAbs ⟨v, cur.y⟩ rest).2) := rfl

/-- Decoding a `V` run emitted by `collectV` reproduces the consumed
points, provided the decoder's current point shares its x with the run
anchor. -/
theorem decodeYs_collectV (l : List QV2) :
    ∀ (cur cd : QV2), cd.x = cur.x →
      decodeYsAbs cd (cur.y :: (collectV cur l).1.map (fun q => q.y)) =
        ((cur :: (collectV cur l).1).map (fun q => (q, false)),
         (collectV cur l).1.getLastD cur) := by
  induction l with
  | nil =>
    intro cur cd hx
    have hcur : (⟨cd.x, cur.y⟩ : QV2) = cur := by rw [hx]
    simp only [collectV, List.map_nil, decodeYsAbs_cons, hcur, decodeYsAbs,
      List.map_cons, List.getLastD_nil]
  | cons p ps ih =>
    intro cur cd hx
    have hcur : (⟨cd.x, cur.y⟩ : QV2) = cur := by rw [hx]
    by_cases h : p.x = cur.x
    · have hcv1 : (collectV cur (p :: ps)).1 = p :: (collectV p ps).1 := by
        simp [collectV, h]
      rw [hcv1, List.map_cons, decodeYsAbs_cons, hcur]
      rw [ih p cur h.symm]
      simp [List.getLastD_cons, getD_getLast?_cons]
    · have hcv1 : (collectV cur (p :: ps)).1 = [] := by
        simp [collectV, h]
      rw [hcv1]
      simp only [List.map_nil, decodeYsAbs_cons, hcur, decodeYsAbs,
        List.map_cons, List.getLastD_nil]

/-- Decoding an `H` run emitted by `collectH`. -/
theorem decodeXs_collectH (l : List QV2) :
    ∀ (cur cd : QV2), cd.y = cur.y →
      decodeXsAbs cd (cur.x :: (collectH cur l).1.map (fun q => q.x)) =
        ((cur :: (collectH cur l).1).map (fun q => (q, false)),
         (collectH cur l).1.getLastD cur) := by
  induction l with
  | nil =>
    intro cur cd hy
    have hcur : (⟨cur.x, cd.y⟩ : QV2) = cur := by rw [hy]
    simp only [collectH, List.map_nil, decodeXsAbs_cons, hcur, decodeXsAbs,
      List.map_cons, List.getLastD_nil]
  | cons p ps ih =>
    intro cur cd hy
    have hcur : (⟨cur.x, cd.y⟩ : QV2) = cur := by rw [hy]
    by_cases h : p.y = cur.y
    · have hcv1 : (collectH cur (p :: ps)).1 = p :: (collectH p ps).1 := by
        simp [collectH, h]
      rw [hcv1, List.map_cons, decodeXsAbs_cons, hcur]
      rw [ih p cur h.symm]
      simp [List.getLastD_cons, getD_getLast?_cons]
    · have hcv1 : (collectH cur (p :: ps)).1 = [] := by
        simp [collectH, h]
      rw [hcv1]
      simp only [List.map_nil, decodeXsAbs_cons, hcur, decodeXsAbs,
        List.map_cons, List.getLastD_nil]

theorem decodeCommands_cons (c : Command) (cs : List Command) (cur start : QV2) :
    decodeCommands (c :: cs) cur start =
      match runCommand c cur start with
      | none => none
      | some (es, cur1, start1) =>
        match decodeCommands cs cur1 start1 with
        | none => none
        | some (es2, cur2, start2) => some (es ++ es2, cur2, start2) := rfl

theorem runCommand_vert (cur start : QV2) (y : ℚ) (ys : List ℚ) :
    runCommand (Command.mk .VertAbs (y :: ys)) cur start =
      some ((decodeYsAbs cur (y :: ys)).1, (decodeYsAbs cur (y :: ys)).2, start) := rfl

theorem runCommand_horiz (cur start : QV2) (x : ℚ) (xs : List ℚ) :
    runCommand (Command.mk .HorizAbs (x :: xs)) cur start =
      some ((decodeXsAbs cur (x :: xs)).1, (decodeXsAbs cur (x :: xs)).2, start) := rfl

theorem runCommand_close (cur start : QV2) :
    runCommand (Command.mk .ClosePath []) cur start =
      some ([(start, true)], start, start) := rfl

theorem decodeCommands_close (cur start : QV2) :
    decodeCommands [Command.mk .ClosePath []] cur start =
      some ([(start, true)], start, start) := rfl

theorem runCommand_line (cur start : QV2) (x y : ℚ) (rest : List ℚ) :
    runCommand (Command.mk .LineToAbs (x :: y :: rest)) cur start =
      (decodePairsAbs ⟨x, y⟩ rest).map
        (fun r => (((⟨x, y⟩ : QV2), false) :: r.1, r.2, start)) := rfl

theorem decodeCommands_cons_some {c : Command} {cs : List Command} {cur start : QV2}
    {es : List (QV2 × Bool)} {cur1 start1 : QV2} {es2 : List (QV2 × Bool)}
    {cur2 start2 : QV2}
    (h1 : runCommand c cur start = some (es, cur1, start1))
    (h2 : decodeCommands cs cur1 start1 = some (es2, cur2, start2)) :
    decodeCommands (c :: cs) cur start = some (es ++ es2, cur2, start2) := by
  simp [decodeCommands_cons, h1, h2]

/-- Decoding the final flush-and-close command pair of the encoder. -/
theorem encodeRest_decode_nil (last cur s : QV2) :
    decodeCommands (encodeRest last cur []) last s =
      some ([(cur, false), (s, true)], s, s) := by
  rw [encodeRest.eq_def]
  by_cases h1 : cur.x = last.x
  · rw [if_pos h1]
    have hc : (⟨last.x, cur.y⟩ : QV2) = cur := by rw [← h1]
    have hrun : runCommand (Command.mk .VertAbs [cur.y]) last s =
        some ([(cur, false)], cur, s) := by
      rw [runCommand_vert]
      simp [decodeYsAbs, hc]
    rw [decodeCommands_cons_some hrun (decodeCommands_close cur s)]
    rfl
  · rw [if_neg h1]
    by_cases h2 : cur.y = last.y
    · rw [if_pos h2]
      have hc : (⟨cur.x, last.y⟩ : QV2) = cur := by rw [← h2]
      have hrun : runCommand (Command.mk .HorizAbs [cur.x]) last s =
          some ([(cur, false)], cur, s) := by
        rw [runCommand_horiz]
        simp [decodeXsAbs, hc]
      rw [decodeCommands_cons_some hrun (decodeCommands_close cur s)]
      rfl
    · rw [if_neg h2]
      have hrun : runCommand (Command.mk .LineToAbs [cur.x, cur.y]) last s =
          some ([(cur, false)], cur, s) := by
        rw [runCommand_line]
        simp [decodePairsAbs, QV2.eta]
      rw [decodeCommands_cons_some hrun (decodeCommands_close cur s)]
      rfl

/-- Decoding the command stream that `encodeRest` emits from state
`(last_point, current_point, remaining points)` — with the decoder's
current point equal to `last_point` (the last point already emitted) —
yields exactly the pending point, the remaining points, and the closing
boundary marker at the subpath start. -/
theorem encodeRest_decode (l : List QV2) (last cur s : QV2) :
    decodeCommands (encodeRest last cur l) last s =
      some ((cur :: l).map (fun q => (q, false)) ++ [(s, true)], s, s) := by
  have H : ∀ (n : ℕ) (l : List QV2) (last cur s : QV2), l.length ≤ n →
      decodeCommands (encodeRest last cur l) last s =
        some ((cur :: l).map (fun q => (q, false)) ++ [(s, true)], s, s) := by
    intro n
    induction n with
    | zero =>
      intro l last cur s hl
      have hnil : l = [] := List.eq_nil_of_length_eq_zero (Nat.le_zero.mp hl)
      subst hnil
      rw [encodeRest_decode_nil]
      rfl
    | succ n ih =>
      intro l last cur s hl
      cases l with
      | nil =>
        rw [encodeRest_decode_nil]
        rfl
      | cons np ps =>
        rw [encodeRest.eq_def]
        dsimp only
        by_cases h1 : cur.x = last.x
        · rw [if_pos h1]
          have hrun : runCommand
              (Command.mk .VertAbs (cur.y :: (collectV cur (np :: ps)).1.map (fun q => q.y)))
              last s =
              some ((cur :: (collectV cur (np :: ps)).1).map (fun q => (q, false)),
                (collectV cur (np :: ps)).2.1, s) := by
            rw [runCommand_vert, decodeYs_collectV (np :: ps) cur last h1.symm,
              ← collectV_runLast]
          split
          · rename_i p rest heq
            have hlen : rest.length ≤ n := by
              have := collectV_rest_lt cur p rest (np :: ps) heq
              simp only [List.length_cons] at this hl
              omega
            rw [decodeCommands_cons_some hrun
              (ih rest (collectV cur (np :: ps)).2.1 p s hlen)]
            have happ := collectV_append cur (np :: ps)
            rw [heq] at happ
            conv_rhs => rw [happ]
            simp
          · rename_i heq
            rw [decodeCommands_cons_some hrun (decodeCommands_close _ s)]
            have happ := collectV_append cur (np :: ps)
            rw [heq] at happ
            conv_rhs => rw [happ]
            simp
        · rw [if_neg h1]
          by_cases h2 : cur.y = last.y
          · rw [if_pos h2]
            have hrun : runCommand
                (Command.mk .HorizAbs (cur.x :: (collectH cur (np :: ps)).1.map (fun q => q.x)))
                last s =
                some ((cur :: (collectH cur (np :: ps)).1).map (fun q => (q, false)),
                  (collectH cur (np :: ps)).2.1, s) := by
              rw [runCommand_horiz, decodeXs_collectH (np :: ps) cur last h2.symm,
                ← collectH_runLast]
            split
            · rename_i p rest heq
              have hlen : rest.length ≤ n := by
                have := collectH_rest_lt cur p rest (np :: ps) heq
                simp only [List.length_cons] at this hl
                omega
              rw [decodeCommands_cons_some hrun
                (ih rest (collectH cur (np :: ps)).2.1 p s hlen)]
              have happ := collectH_append cur (np :: ps)
              rw [heq] at happ
              conv_rhs => rw [happ]
              simp
            · rename_i heq
              rw [decodeCommands_cons_some hrun (decodeCommands_close _ s)]
              have happ := collectH_append cur (np :: ps)
              rw [heq] at happ
              conv_rhs => rw [happ]
              simp
          · rw [if_neg h2]
            have hrun : runCommand
                (Command.mk .LineToAbs (cur.x :: cur.y :: flatPairs (collectL cur (np :: ps)).1))
                last s =
                some ((cur :: (collectL cur (np :: ps)).1).map (fun q => (q, false)),
                  (collectL cur (np :: ps)).2.1, s) := by
              rw [runCommand_line, QV2.eta, decodePairsAbs_flat, ← collectL_runLast]
              rfl
            split
            · rename_i p rest heq
              have hlen : rest.length ≤ n := by
                have := collectL_rest_lt cur p rest (np :: ps) heq
                simp only [List.length_cons] at this hl
                omega
              rw [decodeCommands_cons_some hrun
                (ih rest (collectL cur (np :: ps)).2.1 p s hlen)]
              have happ := collectL_append cur (np :: ps)
              rw [heq] at happ
              conv_rhs => rw [happ]
              simp
            · rename_i heq
              rw [decodeCommands_cons_some hrun (decodeCommands_close _ s)]
              have happ := collectL_append cur (np :: ps)
              rw [heq] at happ
              conv_rhs => rw [happ]
              simp
  exact H l.length l last cur s (Nat.le_refl _)

theorem runCommand_move (cur start p0 : QV2) (qs : List QV2) :
    runCommand (Command.mk .MoveToAbs (p0.x :: p0.y :: flatPairs qs)) cur start =
      some ((p0 :: qs).map (fun q => (q, false)), qs.getLastD p0, p0) := by
  simp [runCommand, QV2.eta, decodePairsAbs_flat]

theorem takeWhile_map_false (l : List QV2) (p0 : QV2) :
    (l.map (fun q => (q, false)) ++ [(p0, true)]).takeWhile (fun pb => !pb.2) =
      l.map (fun q => (q, false)) := by
  induction l with
  | nil => simp [List.takeWhile]
  | cons a as ih => simpa [List.takeWhile_cons] using ih

theorem dropWhile_map_false (l : List QV2) (p0 : QV2) :
    (l.map (fun q => (q, false)) ++ [(p0, true)]).dropWhile (fun pb => !pb.2) =
      [(p0, true)] := by
  induction l with
  | nil => simp [List.dropWhile]
  | cons a as ih => simpa [List.dropWhile_cons] using ih

/-- A non-boundary point run followed by one boundary marker groups into a
single primitive. -/
theorem primsOfPoints_closed (l : List QV2) (p0 : QV2) :
    primsOfPoints (l.map (fun q => (q, false)) ++ [(p0, true)]) = [l] := by
  cases l with
  | nil =>
    show primsOfPoints [(p0, true)] = [[]]
    rw [primsOfPoints.eq_def]
    simp [List.takeWhile, List.dropWhile, primsOfPoints]
  | cons a as =>
    have hs : (a :: as).map (fun q => (q, false)) ++ [(p0, true)] =
        (a, false) :: (as.map (fun q => (q, false)) ++ [(p0, true)]) := by simp
    rw [hs, primsOfPoints.eq_def]
    dsimp only
    rw [show ((a, false) :: (as.map (fun q => (q, false)) ++ [(p0, true)])).takeWhile
          (fun pb => !pb.2) =
        (a, false) :: (as.map (fun q => (q, false)) ++ [(p0, true)]).takeWhile
          (fun pb => !pb.2) from by simp [List.takeWhile_cons]]
    rw [show ((a, false) :: (as.map (fun q => (q, false)) ++ [(p0, true)])).dropWhile
          (fun pb => !pb.2) =
        (as.map (fun q => (q, false)) ++ [(p0, true)]).dropWhile
          (fun pb => !pb.2) from by simp [List.dropWhile_cons]]
    rw [takeWhile_map_false, dropWhile_map_false]
    simp only [List.map_cons, List.map_map, primsOfPoints]
    rw [show ((fun x : QV2 × Bool => x.1) ∘ fun q : QV2 => (q, false)) = id from rfl,
      List.map_id]
    rw [show ([(p0, true)] : List (QV2 × Bool)).tail = [] from rfl]
    rw [primsOfPoints.eq_def]

/-- C1: encoding a non-empty point list with `ToSvgCommandIter` and
decoding the resulting command stream with `SvgPointIter`/`PrimitiveIter`
(from the zero initial state of the source) returns exactly one primitive
with the identical ordered point list. -/
theorem C1_roundtrip (pts : List QV2) (hne : pts ≠ []) :
    (decodeCommands (encodeCommands pts) ⟨0, 0⟩ ⟨0, 0⟩).map
      (fun r => primsOfPoints r.1) = some [pts] := by
  cases pts with
  | nil => exact absurd rfl hne
  | cons p0 rest =>
    rw [encodeCommands]
    split
    · -- the whole list was consumed by the move command
      rename_i heq
      rw [decodeCommands_cons_some (runCommand_move ⟨0, 0⟩ ⟨0, 0⟩ p0 (moveParams p0 rest).1)
        (decodeCommands_close _ p0)]
      have happ := moveParams_append p0 rest
      rw [heq] at happ
      simp only [List.append_nil] at happ
      rw [Option.map_some']
      rw [show (p0 :: (moveParams p0 rest).1).map (fun q => (q, false)) ++ [(p0, true)] =
          ((p0 :: (moveParams p0 rest).1).map (fun q => (q, false)) ++ [(p0, true)]) from rfl]
      rw [primsOfPoints_closed]
      rw [← happ]
    · -- an aligned pair stopped the move command
      rename_i la c pts1 heq
      have hlast : (moveParams p0 rest).1.getLastD p0 = la :=
        (moveParams_some_last p0 rest la c pts1 heq).symm
      rw [decodeCommands_cons_some
        (hlast ▸ runCommand_move ⟨0, 0⟩ ⟨0, 0⟩ p0 (moveParams p0 rest).1)
        (encodeRest_decode pts1 la c p0)]
      have happ := moveParams_append p0 rest
      rw [heq] at happ
      rw [Option.map_some']
      rw [show (p0 :: (moveParams p0 rest).1).map (fun q => (q, false)) ++
            ((c :: pts1).map (fun q => (q, false)) ++ [(p0, true)]) =
          ((p0 :: ((moveParams p0 rest).1 ++ c :: pts1)).map (fun q => (q, false)) ++
            [(p0, true)]) from by simp]
      rw [primsOfPoints_closed]
      rw [← happ]

/-- Witness for the C1 round trip at a concrete primitive. -/
theorem C1_roundtrip_witness :
    (decodeCommands (encodeCommands [⟨1, 2⟩, ⟨3, 2⟩, ⟨3, 5⟩]) ⟨0, 0⟩ ⟨0, 0⟩).map
      (fun r => primsOfPoints r.1) = some [[⟨1, 2⟩, ⟨3, 2⟩, ⟨3, 5⟩]] :=
  C1_roundtrip _ (by simp)

/-! ### The malformed-input claims -/

/-- Every capture the tokenizer yields starts with a character of the
`[MmVvHhLlZz]` class. -/
theorem tokenize_cmdChar (s : List Char) :
    ∀ tc ∈ tokenize s, isCmdChar tc.1 = true := by
  have H : ∀ (n : ℕ) (s : List Char), s.length ≤ n →
      ∀ tc ∈ tokenize s, isCmdChar tc.1 = true := by
    intro n
    induction n with
    | zero =>
      intro s hs tc htc
      have : s = [] := List.eq_nil_of_length_eq_zero (Nat.le_zero.mp hs)
      subst this
      simp [tokenize] at htc
    | succ n ih =>
      intro s hs tc htc
      cases s with
      | nil => simp [tokenize] at htc
      | cons c rest =>
        rw [tokenize] at htc
        by_cases hc : isCmdChar c
        · rw [if_pos hc] at htc
          rcases List.mem_cons.mp htc with rfl | htc2
          · exact hc
          · have h1 := scanNums_rest_le (rest.dropWhile isSpaceChar)
            have h2 := length_dropWhile_le isSpaceChar rest
            simp only [List.length_cons] at hs
            exact ih _ (by omega) tc htc2
        · rw [if_neg hc] at htc
          simp only [List.length_cons] at hs
          exact ih rest (by omega) tc htc
  exact H s.length s (Nat.le_refl _)

/-- Rust `from_opcode` is defined (never panics) on every character of the
tokenizer's class. -/
theorem from_opcode_isSome_of_cmdChar (c : Char) (h : isCmdChar c = true) :
    (from_opcode c).isSome = true := by
  simp only [isCmdChar, decide_eq_true_eq] at h
  rcases h with rfl | rfl | rfl | rfl | rfl | rfl | rfl | rfl | rfl | rfl <;> rfl

/-- C7 counterexample: an input consisting of the unsupported opcode `C`
and parameters decodes to an empty command stream — the tokenizer skips
it silently instead of aborting. -/
theorem C7_counterexample :
    fromSvgCommands ['C', ' ', '1', ' ', '2'] = some [] := by
  with_unfolding_all rfl

/-- C7 amended: a numeric token that fails to parse where a number is
expected aborts the run (modelled as `none`, e.g. the newline-glued token
in `M 0\n1`), but an opcode outside the supported set never reaches
`from_opcode` through the decoder: the tokenizer's pattern only matches
supported opcodes, so unknown opcodes and their parameters are skipped
silently (`C7_counterexample`). -/
theorem C7_malformed_amended :
    (fromSvgCommands ['M', ' ', '0', '\n', '1'] = none) ∧
    (∀ (s : List Char) (tc : Char × List Char), tc ∈ tokenize s →
      (from_opcode tc.1).isSome = true) := by
  constructor
  · with_unfolding_all rfl
  · intro s tc htc
    exact from_opcode_isSome_of_cmdChar tc.1 (tokenize_cmdChar s tc htc)

/-- Witness for the amended C7 theorem: the `M` capture of a well-formed
input is a supported opcode. -/
theorem C7_malformed_amended_witness :
    (from_opcode ('M', ['1', ' ', '2']).1).isSome = true :=
  C7_malformed_amended.2 ['M', ' ', '1', ' ', '2'] ('M', ['1', ' ', '2'])
    (by
      rw [show tokenize ['M', ' ', '1', ' ', '2'] = [('M', ['1', ' ', '2'])] from by
        with_unfolding_all rfl]
      exact List.mem_singleton.mpr rfl)
